import Mathlib

/-!
# Verification of the function-header documentation extractor

A shallow embedding of `docs/tools/document_functions.py`: the header
extractor (`import_header`), the section splitter
(`re.split` over the five recognized markers), the per-section field
parsers (`process_public`, `process_author`, `process_description`,
`process_arguments`, `process_return_value`) and the diagnostic channel
(`feedback` with its four severity labels).

Strings are modelled through their character lists (`String.data`).
Character classes (`\s`, `\w`, `\d`) and the case mappings
(`capitalize`, `title`, `lower`) are modelled over the ASCII range,
which is the range the repository's headers use.  The Python regular
expressions of the source are embedded as explicit backtracking
matchers with the exact non-greedy/greedy semantics of the patterns
involved.  A Python exception escaping a function (an `IndexError`
from a list subscript, the `UnboundLocalError` in
`process_return_value`) is modelled by an `Option` result of `none`.
-/

namespace DocFns

/-- Python's whitespace class, ASCII part: the characters matched by `\s`
and stripped by `str.strip()`. -/
def isPySpace (c : Char) : Bool :=
  c == ' ' || c == '\t' || c == '\n' || c == '\r' || c == '\x0b' || c == '\x0c'

/-- Model of `str.strip()`: drop leading and trailing whitespace. -/
def pyStrip (l : List Char) : List Char :=
  ((l.dropWhile isPySpace).reverse.dropWhile isPySpace).reverse

/-- Line-break characters of `str.splitlines` (ASCII part; `\r\n` is
handled as a single break by `pySplitlinesAux`). -/
def isPyLineBreak (c : Char) : Bool :=
  c == '\n' || c == '\r' || c == '\x0b' || c == '\x0c'

/-- Model of `str.splitlines(keepends)`: accumulator-based scan.  A trailing
break produces no extra empty line, and `""` has no lines. -/
def pySplitlinesAux (keep : Bool) (cur : List Char) : List Char → List (List Char)
  | [] => if cur.isEmpty then [] else [cur.reverse]
  | '\r' :: '\n' :: rest =>
      (if keep then ('\n' :: '\r' :: cur).reverse else cur.reverse) ::
        pySplitlinesAux keep [] rest
  | c :: rest =>
      if isPyLineBreak c then
        (if keep then (c :: cur).reverse else cur.reverse) :: pySplitlinesAux keep [] rest
      else pySplitlinesAux keep (c :: cur) rest

/-- Model of `str.splitlines(keepends)`. -/
def pySplitlines (keep : Bool) (l : List Char) : List (List Char) :=
  pySplitlinesAux keep [] l

/-- Model of `str.capitalize()`: first character uppercased, the rest lowercased. -/
def pyCapitalize (l : List Char) : List Char :=
  match l with
  | [] => []
  | c :: cs => c.toUpper :: cs.map Char.toLower

/-- Model of `str.lower()`. -/
def lowerL (l : List Char) : List Char := l.map Char.toLower

/-- Model of `str.title()`: a cased character following a non-cased one is
uppercased, one following a cased one is lowercased. -/
def pyTitleAux (prevCased : Bool) : List Char → List Char
  | [] => []
  | c :: rest =>
      if c.isAlpha then
        (if prevCased then c.toLower else c.toUpper) :: pyTitleAux true rest
      else c :: pyTitleAux false rest

/-- Model of `str.title()`. -/
def pyTitle (l : List Char) : List Char := pyTitleAux false l

/-- Model of `str.split(", ")`: split on every occurrence of comma-space,
leftmost first, no collapsing; `""` yields `[""]`. -/
def splitCommaSpaceAux (cur : List Char) : List Char → List (List Char)
  | [] => [cur.reverse]
  | ',' :: ' ' :: rest => cur.reverse :: splitCommaSpaceAux [] rest
  | c :: rest => splitCommaSpaceAux (c :: cur) rest

/-- A diagnostic as produced by `FunctionFile.feedback`: a numeric
severity level and a message. -/
structure Diag where
  level : Nat
  message : String
deriving DecidableEq, Repr

/-- The label array of `feedback`: `["Info","Warning","Error","Aborted"][level]`. -/
def severityLabels : List String := ["Info", "Warning", "Error", "Aborted"]

/-- The quoting `"\"" + s + "\""`, as produced by the `"...\"{}\"..."` format strings. -/
def quoted (s : String) : String := "\"" ++ s ++ "\""

/-- The class `\w` of the source patterns, ASCII part. -/
def isWordChar (c : Char) : Bool := c.isAlphanum || c == '_'

/-- The character class `[\s\w]` of the source patterns. -/
def isClassChar (c : Char) : Bool := isPySpace c || isWordChar c

/-! ## Header extraction: `re.match(r"\s*/\*.+?\*/", code, re.S)` -/

/-- Split a character list at the first occurrence of `*/`:
`scanClose l = some (m, r)` iff `l = m ++ '*' :: '/' :: r` with `m`
shortest.  Models the non-greedy search for the closing delimiter. -/
def scanClose : List Char → Option (List Char × List Char)
  | [] => none
  | '*' :: '/' :: rest => some ([], rest)
  | c :: rest =>
      match scanClose rest with
      | some (m, r) => some (c :: m, r)
      | none => none

/-- Model of `re.match(r"\s*/\*.+?\*/", code, re.S)`: leading whitespace, the
opening delimiter, at least one arbitrary character (`.+?` with
`re.S`), and the earliest closing delimiter after it. -/
def extractHeader (code : String) : Option String :=
  let ws := code.data.takeWhile isPySpace
  match code.data.dropWhile isPySpace with
  | '/' :: '*' :: c :: rest =>
      match scanClose rest with
      | some (m, _) => some (String.mk (ws ++ '/' :: '*' :: c :: (m ++ ['*', '/'])))
      | none => none
  | _ => none

/-- Model of `FunctionFile.import_header`: store the matched header, or emit the
`Aborted` diagnostic and leave the header empty. -/
def import_header (code : String) : String × List Diag :=
  match extractHeader code with
  | some h => (h, [])
  | none => ("", [⟨3, "Missing header"⟩])

/-! ## Section splitting:
`re.split(r"^(Author|Argument|Return Value|Example|Public)s?:\s?", text, 0, re.M)` -/

/-- Keep-ends line structure with `'\n'` as the only terminator: this is
exactly the line-start structure `^` uses under `re.MULTILINE`. -/
def nlLinesAux (cur : List Char) : List Char → List (List Char)
  | [] => if cur.isEmpty then [] else [cur.reverse]
  | c :: rest =>
      if c = '\n' then (c :: cur).reverse :: nlLinesAux [] rest
      else nlLinesAux (c :: cur) rest

/-- Keep-ends `'\n'` lines. -/
def nlLines (l : List Char) : List (List Char) := nlLinesAux [] l

/-- The five recognized keywords, in the alternation order of the pattern. -/
def sectionKeywords : List (List Char) :=
  ["Author".data, "Argument".data, "Return Value".data, "Example".data, "Public".data]

/-- Match a literal: `dropLit k s = some t` iff `s = k ++ t`. -/
def dropLit : List Char → List Char → Option (List Char)
  | [], s => some s
  | k :: ks, c :: s => if c = k then dropLit ks s else none
  | _ :: _, [] => none

/-- The trailing `\s?` of the marker pattern: greedily consume one
whitespace character when present. -/
def eatOneSpace : List Char → List Char
  | [] => []
  | c :: rest => if isPySpace c then rest else c :: rest

/-- After a keyword: `s?:\s?` — an optional pluralizing `s`, the colon,
and an optional single whitespace character. -/
def markerTail : List Char → Option (List Char)
  | ':' :: rest => some (eatOneSpace rest)
  | 's' :: ':' :: rest => some (eatOneSpace rest)
  | _ => none

/-- Try the keyword alternation left to right at the current position;
on success return the captured keyword and the rest after the match. -/
def matchMarkerIn : List (List Char) → List Char → Option (List Char × List Char)
  | [], _ => none
  | kw :: kws, s =>
      match dropLit kw s with
      | some t =>
          match markerTail t with
          | some r => some (kw, r)
          | none => matchMarkerIn kws s
      | none => matchMarkerIn kws s

/-- The marker pattern `(Author|Argument|Return Value|Example|Public)s?:\s?`
matched at a line start. -/
def matchMarker (s : List Char) : Option (List Char × List Char) :=
  matchMarkerIn sectionKeywords s

/-- The split driver: a marker can only match at the start of a line and
never spans past the line's terminator, so `re.split` is a fold over the
keep-ends lines, accumulating the text between matches. -/
def splitGo : List (List Char) → List Char → List (List Char)
  | [], acc => [acc]
  | line :: rest, acc =>
      match matchMarker line with
      | some (kw, tl) => acc :: kw :: splitGo rest tl
      | none => splitGo rest (acc ++ line)

/-- The list `self.sections`: the full result of the `re.split` call, with the
captured keywords interleaved between the text pieces. -/
def splitSections (text : String) : List String :=
  (splitGo (nlLines text.data) []).map String.mk

/-- The normalization producing `self.header_text`: `"\n".join([x[3:].strip() for x in header.splitlines()])`. -/
def headerText (header : String) : String :=
  String.mk (List.intercalate ['\n']
    ((pySplitlines false header.data).map (fun l => pyStrip (l.drop 3))))

/-- Model of `FunctionFile.get_section`: look the name up in the flat split result
(`list.index` finds the first occurrence of the exact string) and return
the following element.  A missing name (`ValueError`) is reported and
yields `""`; a name found at the last position would raise an uncaught
`IndexError`, modelled by `none`. -/
def get_section (sections : List String) (name : String) : Option String × List Diag :=
  match sections.findIdx? (· == name) with
  | some i =>
      match sections.get? (i + 1) with
      | some s => (some s, [])
      | none => (none, [])
  | none => (some "", [⟨2, "Missing " ++ quoted name ++ " header section"⟩])

/-! ## Field parsers -/

/-- The prefix test `re.match(r"(Yes|No)", public_text, re.I)`. -/
def yesNoCI (l : List Char) : Bool :=
  lowerL (l.take 3) == "yes".data || lowerL (l.take 2) == "no".data

/-- Model of `FunctionFile.process_public`: drop the final character, test the
case-insensitive `Yes`/`No` prefix for the diagnostic, and return
whether the capitalized text equals `"Yes"`. -/
def process_public (raw : String) : Bool × List Diag :=
  let t := raw.data.dropLast
  (pyCapitalize t == "Yes".data,
   if yesNoCI t then [] else [⟨2, "Invalid public value " ++ quoted (String.mk t)⟩])

/-- Model of `FunctionFile.process_author`: the first line, split on `", "`.
(The source only calls this on a non-empty body, which has a first
line; `headD` is the total rendering of `splitlines()[0]`.) -/
def process_author (raw : String) : List String :=
  (splitCommaSpaceAux [] ((pySplitlines false raw.data).headD [])).map String.mk

/-- Model of `FunctionFile.process_description`: `"".join(raw.splitlines(1)[1:])`. -/
def process_description (raw : String) : String :=
  String.mk ((pySplitlines true raw.data).drop 1).flatten

/-! ### The argument-line pattern
`^(\d+):\s(.+?)\<([\s\w]+?)\>(\s\(default: (.+)\))?$` -/

/-- The tail `(\s\(default: (.+)\))?$`: either the end of the line, or a
whitespace character, the literal `(default: `, a non-empty default
running to a final `)` (the greedy `(.+)` makes it everything up to the
last character, which must be the `)`). -/
def argEnd : List Char → Option (Option (List Char))
  | [] => some none
  | c :: rest =>
      if isPySpace c && "(default: ".data.isPrefixOf rest then
        let r := rest.drop 10
        if 2 ≤ r.length ∧ r.getLast? = some ')' then some (some r.dropLast) else none
      else none

/-- The `([\s\w]+?)\>` loop after its first mandatory class character:
`>` ends the group (the rest must satisfy `argEnd`; the group cannot
extend past a `>` since `>` is not in the class), a class character
extends it, anything else fails. -/
def argTypesLoop (acc : List Char) : List Char → Option (List Char × Option (List Char))
  | '>' :: rest =>
      match argEnd rest with
      | some d => some (acc.reverse, d)
      | none => none
  | c :: rest => if isClassChar c then argTypesLoop (c :: acc) rest else none
  | [] => none

/-- The group `([\s\w]+?)\>...` directly after the `<`: at least one class character. -/
def argAfterLt : List Char → Option (List Char × Option (List Char))
  | c :: rest => if isClassChar c then argTypesLoop [c] rest else none
  | [] => none

/-- The non-greedy `(.+?)\<` search: try each `<` from the left; if the
types-and-tail fail there, the name extends past that `<`.  `.` does not
match `'\n'`. -/
def argName (acc : List Char) :
    List Char → Option (List Char × List Char × Option (List Char))
  | [] => none
  | '<' :: rest =>
      if acc.isEmpty then argName ['<'] rest
      else
        match argAfterLt rest with
        | some (t, d) => some (acc.reverse, t, d)
        | none => argName ('<' :: acc) rest
  | c :: rest => if c = '\n' then none else argName (c :: acc) rest

/-- The full argument-line pattern: the greedy `(\d+)` is the maximal
digit run (exact, since `:` is not a digit), then `:`, one `\s`, and the
name/types/default tail. -/
def matchArgLine (line : List Char) :
    Option (List Char × List Char × List Char × Option (List Char)) :=
  let ds := line.takeWhile Char.isDigit
  if ds.isEmpty then none
  else
    match line.dropWhile Char.isDigit with
    | ':' :: c :: rest =>
        if isPySpace c then
          match argName [] rest with
          | some (n, t, d) => some (ds, n, t, d)
          | none => none
        else none
    | _ => none

/-- The note-vs-malformed test `re.match(r"^(\d+):", argument)`. -/
def startsIdxColon (line : List Char) : Bool :=
  !(line.takeWhile Char.isDigit).isEmpty &&
    (line.dropWhile Char.isDigit).head? == some ':'

/-- One argument tuple `[arg_index, arg_name, arg_types, arg_default, arg_notes]`. -/
structure PyArg where
  index : String
  name : String
  types : String
  dflt : String
  notes : List String
deriving DecidableEq, Repr

/-- Model of `arguments[-1][-1].append(argument)`: append a note line to the last
accepted argument. -/
def appendNote (args : List PyArg) (line : List Char) : List PyArg :=
  match args.getLast? with
  | some a => args.dropLast ++ [{ a with notes := a.notes ++ [String.mk line] }]
  | none => args

/-- The loop body of `process_arguments` for one line: on a pattern
match, warn when the written index differs from `str(len(arguments))`
and append the argument with its as-written index; on a non-match,
report a malformed argument when the line starts a new index or there is
no argument to attach to, otherwise record the line as a note. -/
def arg_step (args : List PyArg) (line : List Char) : List PyArg × List Diag :=
  match matchArgLine line with
  | some (i, n, t, d) =>
      let idx := String.mk i
      (args ++ [⟨idx, String.mk n, String.mk t, String.mk (d.getD []), []⟩],
       if idx = Nat.repr args.length then []
       else [⟨1, "Argument index " ++ idx ++ " does not match listed order"⟩])
  | none =>
      if startsIdxColon line || args.isEmpty then
        (args, [⟨2, "Malformed argument " ++ quoted (String.mk line)⟩])
      else (appendNote args line, [])

/-- The `for argument in lines` loop, threading the diagnostics in
emission order. -/
def arg_loop : List (List Char) → List PyArg → List Diag → List PyArg × List Diag
  | [], args, ds => (args, ds)
  | l :: rest, args, ds =>
      let (args2, d2) := arg_step args l
      arg_loop rest args2 (ds ++ d2)

/-- Model of `FunctionFile.process_arguments`.  `lines[0]` on an empty line list
raises `IndexError` (`none`); `lines.count("") == len(lines)` is the
all-lines-empty test; a final blank line is popped, otherwise the
blank-line warning is emitted before the loop runs on all lines. -/
def process_arguments (raw : String) : Option (List PyArg) × List Diag :=
  let lines := pySplitlines false raw.data
  match lines with
  | [] => (none, [])
  | l0 :: _ =>
    if l0 = "None".data then (some [], [])
    else if lines.all List.isEmpty then
      (some [], [⟨2, "No arguments provided (use \"None\" where appropriate)"⟩])
    else
      let (lines2, d0) :=
        if lines.getLast? = some [] then (lines.dropLast, ([] : List Diag))
        else (lines, [⟨1, "No blank line after arguments list"⟩])
      let (args, ds) := arg_loop lines2 [] d0
      (some args, ds)

/-! ### The return-value pattern `^(.+?)\<([\s\w]+?)\>` (no end anchor) -/

/-- The group `([\s\w]+?)\>` after its first mandatory class character; nothing
follows the `>` in this pattern, so the first `>` ends the match. -/
def rvTypesLoop (acc : List Char) : List Char → Option (List Char)
  | '>' :: _ => some acc.reverse
  | c :: rest => if isClassChar c then rvTypesLoop (c :: acc) rest else none
  | [] => none

/-- The group `([\s\w]+?)\>` directly after the `<`. -/
def rvAfterLt : List Char → Option (List Char)
  | c :: rest => if isClassChar c then rvTypesLoop [c] rest else none
  | [] => none

/-- The non-greedy `(.+?)\<` search of the return-value pattern. -/
def rvName (acc : List Char) : List Char → Option (List Char × List Char)
  | [] => none
  | '<' :: rest =>
      if acc.isEmpty then rvName ['<'] rest
      else
        match rvAfterLt rest with
        | some t => some (acc.reverse, t)
        | none => rvName ('<' :: acc) rest
  | c :: rest => if c = '\n' then none else rvName (c :: acc) rest

/-- Model of `FunctionFile.process_return_value`: strip, test the title-cased
`"None"` sentinel, else match the pattern.  On a failed match the
function reports the malformed value and then evaluates
`[return_name, return_types]` with neither local ever assigned, raising
`UnboundLocalError` — modelled by `none`. -/
def process_return_value (raw : String) : Option (List String) × List Diag :=
  let rv := pyStrip raw.data
  if pyTitle rv == "None".data then (some ["None", "N/A"], [])
  else
    match rvName [] rv with
    | some (n, t) => (some [String.mk n, String.mk t], [])
    | none => (none, [⟨2, "Malformed return value " ++ quoted (String.mk rv)⟩])

/-! ## The per-file record and orchestration -/

/-- The parsed record of one file, with the defaults set in `__init__`. -/
structure DocRecord where
  public : Bool := false
  authors : List String := []
  description : String := ""
  arguments : List PyArg := []
  return_value : List String := []
  exampleText : String := ""
deriving DecidableEq, Repr

/-- Model of `FunctionFile.process_header`: normalize, split, require a non-empty
`Public` section, parse the public flag, stop early when private and not
in debug mode, then fetch and parse the remaining sections in source
order.  A `none` first component models a Python exception escaping
(the `get_section` `IndexError` or the `process_return_value`
`UnboundLocalError`); the diagnostic list collects everything emitted
before the result (or the exception). -/
def process_header (header : String) (debug : Bool) : Option DocRecord × List Diag :=
  let sections := splitSections (headerText header)
  match get_section sections "Public" with
  | (none, ds) => (none, ds)
  | (some public_raw, ds0) =>
    if public_raw = "" then (some {}, ds0 ++ [⟨3, "Public value undefined"⟩])
    else
      let (pub, ds1) := process_public public_raw
      if !pub && !debug then (some { public := pub }, ds0 ++ ds1)
      else
        match get_section sections "Author" with
        | (none, dsA) => (none, ds0 ++ ds1 ++ dsA)
        | (some author_raw, dsA) =>
        match get_section sections "Argument" with
        | (none, dsB) => (none, ds0 ++ ds1 ++ dsA ++ dsB)
        | (some arguments_raw, dsB) =>
        match get_section sections "Return Value" with
        | (none, dsC) => (none, ds0 ++ ds1 ++ dsA ++ dsB ++ dsC)
        | (some return_value_raw, dsC) =>
        match get_section sections "Example" with
        | (none, dsD) => (none, ds0 ++ ds1 ++ dsA ++ dsB ++ dsC ++ dsD)
        | (some example_raw, dsD) =>
          let dsHead := ds0 ++ ds1 ++ dsA ++ dsB ++ dsC ++ dsD
          let (authors, description) :=
            if author_raw ≠ "" then (process_author author_raw, process_description author_raw)
            else ([], "")
          match (if arguments_raw ≠ "" then process_arguments arguments_raw
                 else (some [], [])) with
          | (none, dsE) => (none, dsHead ++ dsE)
          | (some args, dsE) =>
          match (if return_value_raw ≠ "" then process_return_value return_value_raw
                 else (some [], [])) with
          | (none, dsF) => (none, dsHead ++ dsE ++ dsF)
          | (some rv, dsF) =>
            (some { public := pub, authors := authors, description := description,
                    arguments := args, return_value := rv,
                    exampleText := if example_raw ≠ "" then String.mk (pyStrip example_raw.data)
                               else "" },
             dsHead ++ dsE ++ dsF)

/-- One iteration of `crawl_dir` for one file's text: import the header;
when present, process it, and when the record is public outside debug
mode, emit the `"Publicly documented"` info line (level `0` is the
default `feedback` level). -/
def processFile (code : String) (debug : Bool) : Option DocRecord × List Diag :=
  let (h, d0) := import_header code
  if h = "" then (some {}, d0)
  else
    match process_header h debug with
    | (none, d) => (none, d0 ++ d)
    | (some r, d) =>
        (some r, d0 ++ d ++ (if r.public && !debug then [⟨0, "Publicly documented"⟩] else []))

end DocFns

namespace DocFns

/-! ## Shared helper lemmas -/

/-- The `(Yes|No)` prefix test is the case-insensitive prefix property. -/
theorem yesNoCI_iff (t : List Char) :
    yesNoCI t = true ↔ ("yes".data <+: lowerL t ∨ "no".data <+: lowerL t) := by
  unfold yesNoCI
  rw [Bool.or_eq_true, beq_iff_eq, beq_iff_eq]
  unfold lowerL
  rw [List.map_take, List.map_take]
  constructor
  · rintro (h | h)
    · exact Or.inl (by rw [List.prefix_iff_eq_take]; exact h.symm)
    · exact Or.inr (by rw [List.prefix_iff_eq_take]; exact h.symm)
  · rintro (h | h)
    · exact Or.inl (by rw [List.prefix_iff_eq_take] at h; exact h.symm)
    · exact Or.inr (by rw [List.prefix_iff_eq_take] at h; exact h.symm)

end DocFns

namespace DocFns

/-! ## C1 — malformed return values crash `process_return_value` -/

/-- C1: the claim says that on a raw return-value body that is neither
`None` nor of the `name<TYPES>` shape, `process_return_value` emits
exactly one Error diagnostic and still returns a value with no exception
propagating.  The code does emit the single Error diagnostic, but then
evaluates `[return_name, return_types]` with both locals unassigned, so
an `UnboundLocalError` propagates out (result `none`): the claimed
"returns a value to its caller" is the intended behavior and the code a
slip. -/
theorem C1_return_value_crash :
    process_return_value "Success BOOLEAN\n" =
      (none, [⟨2, "Malformed return value \"Success BOOLEAN\""⟩]) := by decide

/-! ## C2 — the §8 scenario -/

/-- The §8 scenario header, verbatim (block comment with ` * ` decoration). -/
def scenarioHeader : String :=
  "/*\n * Author: bux578\n * Does a thing.\n *\n * Arguments:\n * 0: Unit <OBJECT>\n *\n * Return Value:\n * Success <BOOLEAN>\n *\n * Example:\n * [player] call ace_test_fnc_thing;\n *\n * Public: Yes\n */"

/-- C2 (counterexample): on the §8 header, `process_header` does not
produce the record claimed by the spec — the description keeps the
blank line (`"Does a thing.\n\n"`), and the non-greedy `(.+?)\<` groups
keep the space before `<` in the argument name (`"Unit "`) and the
return-value name (`"Success "`). -/
theorem C2_scenario_cex :
    (process_header scenarioHeader false).1 ≠
      some { public := true, authors := ["bux578"], description := "Does a thing.\n",
             arguments := [⟨"0", "Unit", "OBJECT", "", []⟩],
             return_value := ["Success", "BOOLEAN"],
             exampleText := "[player] call ace_test_fnc_thing;" } := by decide

/-- C2 (amended): running `process_header` on the §8 scenario header
yields public=true, authors=["bux578"], description="Does a thing.\n\n",
arguments=[("0","Unit ","OBJECT","",[])],
return_value=("Success ","BOOLEAN"),
example="[player] call ace_test_fnc_thing;" — and no diagnostics. -/
theorem C2_scenario :
    process_header scenarioHeader false =
      (some { public := true, authors := ["bux578"], description := "Does a thing.\n\n",
              arguments := [⟨"0", "Unit ", "OBJECT", "", []⟩],
              return_value := ["Success ", "BOOLEAN"],
              exampleText := "[player] call ace_test_fnc_thing;" }, []) := by decide

end DocFns

namespace DocFns

/-! ## C5 — `process_public` -/

/-- C5: for every non-empty raw Public-section body, `process_public`
drops the last character, returns `true` iff the remaining text
capitalized equals `"Yes"`, and emits the single
`Invalid public value` Error diagnostic iff the remaining text does not
start, case-insensitively, with `Yes` or `No` (so trailing characters
after the keyword never cause a diagnostic). -/
theorem C5_process_public (raw : String) (hne : raw ≠ "") :
    ((process_public raw).1 = true ↔ pyCapitalize raw.data.dropLast = "Yes".data) ∧
    ((process_public raw).2 ≠ [] ↔
      ¬ ("yes".data <+: lowerL raw.data.dropLast ∨ "no".data <+: lowerL raw.data.dropLast)) ∧
    ((process_public raw).2 = [] ∨
      (process_public raw).2 =
        [⟨2, "Invalid public value " ++ quoted (String.mk raw.data.dropLast)⟩]) := by
  unfold process_public
  refine ⟨beq_iff_eq, ?_, ?_⟩
  · rw [← yesNoCI_iff]
    by_cases h : yesNoCI raw.data.dropLast = true
    · simp [h]
    · simp [h]
  · by_cases h : yesNoCI raw.data.dropLast = true
    · exact Or.inl (by simp [h])
    · exact Or.inr (by simp [h])

/-- C5 witness: instances at `"Yes\n"` and `"maybe\n"`. -/
theorem C5_process_public_w :
    ((process_public "Yes\n").1 = true ↔ pyCapitalize "Yes\n".data.dropLast = "Yes".data) ∧
    ((process_public "maybe\n").2 ≠ [] ↔
      ¬ ("yes".data <+: lowerL "maybe\n".data.dropLast ∨
          "no".data <+: lowerL "maybe\n".data.dropLast)) :=
  ⟨(C5_process_public "Yes\n" (by decide)).1,
   (C5_process_public "maybe\n" (by decide)).2.1⟩

/-! ## C6 — `process_arguments` boundary behavior -/

/-- C6: a raw Arguments body whose first line is exactly `None` yields
the empty argument list with zero diagnostics; a raw body that has
lines, all of them empty, yields the empty list with exactly one Error
diagnostic. -/
theorem C6_arguments_boundary :
    (∀ raw : String, (pySplitlines false raw.data).head? = some "None".data →
        process_arguments raw = (some [], [])) ∧
    (∀ raw : String, pySplitlines false raw.data ≠ [] →
        (∀ l ∈ pySplitlines false raw.data, l = []) →
        process_arguments raw =
          (some [], [⟨2, "No arguments provided (use \"None\" where appropriate)"⟩])) := by
  constructor
  · intro raw hhead
    unfold process_arguments
    cases h : pySplitlines false raw.data with
    | nil => rw [h] at hhead; exact absurd hhead (by simp)
    | cons l0 rest =>
        rw [h] at hhead
        simp only [List.head?_cons, Option.some.injEq] at hhead
        simp [hhead]
  · intro raw hne hall
    unfold process_arguments
    cases h : pySplitlines false raw.data with
    | nil => exact absurd h hne
    | cons l0 rest =>
        rw [h] at hall
        have h0 : l0 = [] := hall l0 (by simp)
        have hnone : ¬ (l0 = "None".data) := by rw [h0]; decide
        have hallb : (l0 :: rest).all List.isEmpty = true := by
          rw [List.all_eq_true]
          intro x hx
          rw [hall x hx]
          rfl
        simp [hnone, hallb]

/-- C6 witness: instances at `"None\n"` and `"\n\n"`. -/
theorem C6_arguments_boundary_w :
    process_arguments "None\n" = (some [], []) ∧
    process_arguments "\n\n" =
      (some [], [⟨2, "No arguments provided (use \"None\" where appropriate)"⟩]) :=
  ⟨C6_arguments_boundary.1 "None\n" (by decide),
   C6_arguments_boundary.2 "\n\n" (by decide) (by decide)⟩

/-! ## C7 — argument index ordering -/

/-- C7: in the `process_arguments` loop, a matching argument line whose
written index equals the current count of accepted arguments is appended
with no diagnostic; one whose written index differs is still appended,
carrying its as-written index, together with the single
`does not match listed order` Warning. -/
theorem C7_argument_order (args : List PyArg) (line : List Char)
    (i n t : List Char) (d : Option (List Char))
    (hm : matchArgLine line = some (i, n, t, d)) :
    (String.mk i = Nat.repr args.length →
      arg_step args line =
        (args ++ [⟨String.mk i, String.mk n, String.mk t, String.mk (d.getD []), []⟩], [])) ∧
    (String.mk i ≠ Nat.repr args.length →
      arg_step args line =
        (args ++ [⟨String.mk i, String.mk n, String.mk t, String.mk (d.getD []), []⟩],
         [⟨1, "Argument index " ++ String.mk i ++ " does not match listed order"⟩])) := by
  unfold arg_step
  rw [hm]
  constructor
  · intro he; simp [he]
  · intro he; simp [he]

/-- C7 witness: after an accepted `0: Unit<OBJECT>`, the line
`1: Target<OBJECT>` is accepted silently, while `2: Target<OBJECT>` in
the same position is appended with index "2" plus the order Warning. -/
theorem C7_argument_order_w :
    arg_step [⟨"0", "Unit", "OBJECT", "", []⟩] "1: Target<OBJECT>".data =
      ([⟨"0", "Unit", "OBJECT", "", []⟩, ⟨"1", "Target", "OBJECT", "", []⟩], []) ∧
    arg_step [⟨"0", "Unit", "OBJECT", "", []⟩] "2: Target<OBJECT>".data =
      ([⟨"0", "Unit", "OBJECT", "", []⟩, ⟨"2", "Target", "OBJECT", "", []⟩],
       [⟨1, "Argument index 2 does not match listed order"⟩]) :=
  ⟨(C7_argument_order [⟨"0", "Unit", "OBJECT", "", []⟩] "1: Target<OBJECT>".data
      "1".data "Target".data "OBJECT".data none (by decide)).1 (by decide),
   (C7_argument_order [⟨"0", "Unit", "OBJECT", "", []⟩] "2: Target<OBJECT>".data
      "2".data "Target".data "OBJECT".data none (by decide)).2 (by decide)⟩

end DocFns

namespace DocFns

/-! ## C8 / C9 — private or invalid `Public` values stop processing -/

/-- Shared: with a non-empty `Public` body parsing to `false` and debug
off, `process_header` stops after `process_public`; every other field
keeps its `__init__` default and only `process_public`'s diagnostics are
emitted. -/
theorem process_header_private (header raw : String)
    (hfind : get_section (splitSections (headerText header)) "Public" = (some raw, []))
    (hne : raw ≠ "") (hpriv : (process_public raw).1 = false) :
    process_header header false =
      (some { public := false, authors := [], description := "", arguments := [],
              return_value := [], exampleText := "" },
       (process_public raw).2) := by
  unfold process_header
  simp only [hfind]
  rw [if_neg hne]
  have hpp : process_public raw = ((process_public raw).1, (process_public raw).2) := rfl
  rw [hpp, hpriv]
  simp

/-- C8: when the `Public` section is present and non-empty, parses to
`false`, and debug mode is off, `process_header` returns right after
`process_public`: authors, description, arguments, return value and
example keep their defaults, no further section is looked up and no
diagnostics beyond `process_public`'s are emitted. -/
theorem C8_private_skips_rest (header raw : String)
    (hfind : get_section (splitSections (headerText header)) "Public" = (some raw, []))
    (hne : raw ≠ "") (hpriv : (process_public raw).1 = false) :
    process_header header false =
      (some { public := false, authors := [], description := "", arguments := [],
              return_value := [], exampleText := "" },
       (process_public raw).2) :=
  process_header_private header raw hfind hne hpriv

/-- C8 witness: a header whose `Public` section is `No`. -/
theorem C8_private_skips_rest_w :
    process_header "/*\n * Public: No\n */" false =
      (some { public := false, authors := [], description := "", arguments := [],
              return_value := [], exampleText := "" },
       (process_public "No\n").2) :=
  C8_private_skips_rest "/*\n * Public: No\n */" "No\n" (by decide) (by decide) (by decide)

/-- Evaluation of `Char.toNat` after `Char.ofNat` at a valid code point. -/
theorem char_toNat_ofNat_valid (n : Nat) (h : n.isValidChar) : (Char.ofNat n).toNat = n := by
  simp [Char.ofNat, h, Char.ofNatAux, Char.toNat, UInt32.toNat, BitVec.toNat_ofNatLt]

/-- Injectivity: `Char.toNat` determines the character. -/
theorem char_toNat_inj (c c' : Char) (h : c.toNat = c'.toNat) : c = c' := by
  rw [← Char.ofNat_toNat c, ← Char.ofNat_toNat c', h]

/-- A character uppercasing to `'Y'` lowercases to `'y'`. -/
theorem toLower_of_toUpper_Y (c : Char) (h : c.toUpper = 'Y') : c.toLower = 'y' := by
  unfold Char.toUpper at h
  by_cases hc : c.toNat ≥ 97 ∧ c.toNat ≤ 122
  · rw [if_pos hc] at h
    have hv : (c.toNat - 32).isValidChar := by left; omega
    have h89 := congrArg Char.toNat h
    rw [char_toNat_ofNat_valid _ hv] at h89
    have hY : Char.toNat 'Y' = 89 := rfl
    rw [hY] at h89
    have hy : Char.toNat 'y' = 121 := rfl
    have h121 : c = 'y' := char_toNat_inj c 'y' (by omega)
    rw [h121]; decide
  · rw [if_neg hc] at h
    rw [h]; decide

/-- If the capitalized text equals `"Yes"`, the text starts
case-insensitively with `yes`. -/
theorem capitalize_yes_ci (t : List Char) (h : pyCapitalize t = "Yes".data) :
    "yes".data <+: lowerL t := by
  match t with
  | [] => exact absurd h (by decide)
  | c :: cs =>
      unfold pyCapitalize at h
      rw [show "Yes".data = 'Y' :: 'e' :: 's' :: [] from rfl] at h
      rw [List.cons.injEq] at h
      obtain ⟨hc, hcs⟩ := h
      match cs, hcs with
      | a :: b :: [], hcs =>
          simp only [List.map_cons, List.map_nil, List.cons.injEq, and_true] at hcs
          obtain ⟨ha, hb⟩ := hcs
          unfold lowerL
          rw [show List.map Char.toLower (c :: a :: b :: []) =
                c.toLower :: a.toLower :: b.toLower :: [] from rfl,
              toLower_of_toUpper_Y c hc, ha, hb]
      | [], hcs => exact absurd hcs (by decide)
      | a :: [], hcs => exact absurd hcs (by simp)
      | a :: b :: x :: xs, hcs => exact absurd (congrArg List.length hcs) (by simp)

/-- C9 (implicit): a `Public` body whose text (after dropping the final
character) does not start case-insensitively with `Yes` or `No` makes
`process_public` return `false` with exactly the single
`Invalid public value` Error diagnostic, so outside debug mode such a
header is cut short exactly like an explicitly private one, all other
fields keeping their defaults. -/
theorem C9_invalid_public_is_private (raw : String) (hne : raw ≠ "")
    (hinv : ¬ ("yes".data <+: lowerL raw.data.dropLast ∨
               "no".data <+: lowerL raw.data.dropLast)) :
    process_public raw =
      (false, [⟨2, "Invalid public value " ++ quoted (String.mk raw.data.dropLast)⟩]) ∧
    ∀ header : String,
      get_section (splitSections (headerText header)) "Public" = (some raw, []) →
      process_header header false =
        (some { public := false, authors := [], description := "", arguments := [],
                return_value := [], exampleText := "" },
         [⟨2, "Invalid public value " ++ quoted (String.mk raw.data.dropLast)⟩]) := by
  have hci : yesNoCI raw.data.dropLast = false := by
    rw [← Bool.not_eq_true, yesNoCI_iff]
    exact hinv
  have hcap : pyCapitalize raw.data.dropLast ≠ "Yes".data := by
    intro h
    exact hinv (Or.inl (capitalize_yes_ci _ h))
  have hpp : process_public raw =
      (false, [⟨2, "Invalid public value " ++ quoted (String.mk raw.data.dropLast)⟩]) := by
    unfold process_public
    simp only [hci, Bool.false_eq_true, if_false, Prod.mk.injEq, beq_eq_false_iff_ne]
    exact ⟨hcap, trivial⟩
  refine ⟨hpp, fun header hfind => ?_⟩
  have := process_header_private header raw hfind hne (by rw [hpp])
  rw [hpp] at this
  exact this

/-- C9 witness: `maybe` is neither `Yes` nor `No`. -/
theorem C9_invalid_public_is_private_w :
    process_public "maybe\n" =
      (false, [⟨2, "Invalid public value " ++ quoted (String.mk "maybe\n".data.dropLast)⟩]) ∧
    process_header "/*\n * Public: maybe\n */" false =
      (some { public := false, authors := [], description := "", arguments := [],
              return_value := [], exampleText := "" },
       [⟨2, "Invalid public value " ++ quoted (String.mk "maybe\n".data.dropLast)⟩]) :=
  ⟨(C9_invalid_public_is_private "maybe\n" (by decide) (by decide)).1,
   (C9_invalid_public_is_private "maybe\n" (by decide) (by decide)).2
     "/*\n * Public: maybe\n */" (by decide)⟩

end DocFns

namespace DocFns

def diagsBounded (l : List Diag) : Prop := ∀ d ∈ l, d.level < 4

theorem diagsBounded_nil : diagsBounded [] := by intro d hd; cases hd

theorem diagsBounded_single (k : Nat) (m : String) (h : k < 4) : diagsBounded [⟨k, m⟩] := by
  intro d hd
  rw [List.mem_singleton] at hd
  subst hd
  exact h

theorem diagsBounded_append (l₁ l₂ : List Diag) (h₁ : diagsBounded l₁)
    (h₂ : diagsBounded l₂) : diagsBounded (l₁ ++ l₂) := by
  intro d hd
  rcases List.mem_append.1 hd with h | h
  exacts [h₁ d h, h₂ d h]

theorem get_section_bounded (sections : List String) (name : String) :
    diagsBounded (get_section sections name).2 := by
  unfold get_section
  split
  · split
    · exact diagsBounded_nil
    · exact diagsBounded_nil
  · exact diagsBounded_single 2 _ (by omega)

theorem process_public_bounded (raw : String) :
    diagsBounded (process_public raw).2 := by
  unfold process_public
  dsimp only
  split
  · exact diagsBounded_nil
  · exact diagsBounded_single 2 _ (by omega)

theorem arg_step_bounded (args : List PyArg) (line : List Char) :
    diagsBounded (arg_step args line).2 := by
  unfold arg_step
  dsimp only
  split
  · split
    · exact diagsBounded_nil
    · exact diagsBounded_single 1 _ (by omega)
  · split
    · exact diagsBounded_single 2 _ (by omega)
    · exact diagsBounded_nil

theorem arg_loop_bounded (lines : List (List Char)) (args : List PyArg) (ds : List Diag)
    (h : diagsBounded ds) : diagsBounded (arg_loop lines args ds).2 := by
  induction lines generalizing args ds with
  | nil => exact h
  | cons l rest ih =>
      unfold arg_loop
      rw [show arg_step args l = ((arg_step args l).1, (arg_step args l).2) from rfl]
      exact ih _ _ (diagsBounded_append _ _ h (arg_step_bounded args l))

theorem process_arguments_bounded (raw : String) :
    diagsBounded (process_arguments raw).2 := by
  unfold process_arguments
  dsimp only
  split
  · exact diagsBounded_nil
  · split
    · exact diagsBounded_nil
    · split
      · exact diagsBounded_single 2 _ (by omega)
      · set p := (if (pySplitlines false raw.data).getLast? = some [] then
              ((pySplitlines false raw.data).dropLast, ([] : List Diag))
            else (pySplitlines false raw.data, [⟨1, "No blank line after arguments list"⟩])) with hp
        have hpb : diagsBounded p.2 := by
          rw [hp]
          split
          · exact diagsBounded_nil
          · exact diagsBounded_single 1 _ (by omega)
        rw [show p = (p.1, p.2) from rfl]
        rw [show arg_loop p.1 [] p.2 = ((arg_loop p.1 [] p.2).1, (arg_loop p.1 [] p.2).2) from rfl]
        exact arg_loop_bounded _ _ _ hpb

end DocFns

namespace DocFns

theorem process_return_value_bounded (raw : String) :
    diagsBounded (process_return_value raw).2 := by
  unfold process_return_value
  dsimp only
  split
  · exact diagsBounded_nil
  · split
    · exact diagsBounded_nil
    · exact diagsBounded_single 2 _ (by omega)

theorem process_header_bounded (header : String) (debug : Bool) :
    diagsBounded (process_header header debug).2 := by
  have hP := get_section_bounded (splitSections (headerText header)) "Public"
  have hA := get_section_bounded (splitSections (headerText header)) "Author"
  have hB := get_section_bounded (splitSections (headerText header)) "Argument"
  have hC := get_section_bounded (splitSections (headerText header)) "Return Value"
  have hD := get_section_bounded (splitSections (headerText header)) "Example"
  unfold process_header
  dsimp only
  split
  case h_1 ds heq => rw [heq] at hP; exact hP
  case h_2 public_raw ds0 heq =>
    rw [heq] at hP
    have hP0 : diagsBounded ds0 := hP
    split
    · exact diagsBounded_append _ _ hP0 (diagsBounded_single 3 _ (by omega))
    · rw [show process_public public_raw =
          ((process_public public_raw).1, (process_public public_raw).2) from rfl]
      have h1 := process_public_bounded public_raw
      split
      · exact diagsBounded_append _ _ hP0 h1
      · split
        case h_1 dsA heqA => rw [heqA] at hA
                             exact diagsBounded_append _ _ (diagsBounded_append _ _ hP0 h1) hA
        case h_2 author_raw dsA heqA =>
          rw [heqA] at hA
          have hA0 : diagsBounded dsA := hA
          split
          case h_1 dsB heqB =>
            rw [heqB] at hB
            exact diagsBounded_append _ _
              (diagsBounded_append _ _ (diagsBounded_append _ _ hP0 h1) hA0) hB
          case h_2 arguments_raw dsB heqB =>
            rw [heqB] at hB
            have hB0 : diagsBounded dsB := hB
            split
            case h_1 dsC heqC =>
              rw [heqC] at hC
              exact diagsBounded_append _ _ (diagsBounded_append _ _
                (diagsBounded_append _ _ (diagsBounded_append _ _ hP0 h1) hA0) hB0) hC
            case h_2 return_value_raw dsC heqC =>
              rw [heqC] at hC
              have hC0 : diagsBounded dsC := hC
              split
              case h_1 dsD heqD =>
                rw [heqD] at hD
                exact diagsBounded_append _ _ (diagsBounded_append _ _ (diagsBounded_append _ _
                  (diagsBounded_append _ _ (diagsBounded_append _ _ hP0 h1) hA0) hB0) hC0) hD
              case h_2 example_raw dsD heqD =>
                rw [heqD] at hD
                have hD0 : diagsBounded dsD := hD
                have hHead : diagsBounded (ds0 ++ (process_public public_raw).2
                    ++ dsA ++ dsB ++ dsC ++ dsD) :=
                  diagsBounded_append _ _ (diagsBounded_append _ _ (diagsBounded_append _ _
                    (diagsBounded_append _ _ (diagsBounded_append _ _ hP0 h1) hA0) hB0) hC0) hD0
                have hE : diagsBounded (if arguments_raw ≠ "" then
                    process_arguments arguments_raw else (some [], [])).2 := by
                  split
                  · exact process_arguments_bounded arguments_raw
                  · exact diagsBounded_nil
                have hF : diagsBounded (if return_value_raw ≠ "" then
                    process_return_value return_value_raw else (some [], [])).2 := by
                  split
                  · exact process_return_value_bounded return_value_raw
                  · exact diagsBounded_nil
                rw [show (if arguments_raw ≠ "" then process_arguments arguments_raw
                      else (some [], [])) =
                    ((if arguments_raw ≠ "" then process_arguments arguments_raw
                      else (some [], [])).1,
                     (if arguments_raw ≠ "" then process_arguments arguments_raw
                      else (some [], [])).2) from rfl]
                split
                case h_1 dsE heqE =>
                  rw [show dsE = (if arguments_raw ≠ "" then process_arguments arguments_raw
                      else (some [], [])).2 from congrArg Prod.snd heqE.symm]
                  exact diagsBounded_append _ _ hHead hE
                case h_2 args dsE heqE =>
                  have hE0 : diagsBounded dsE := by
                    rw [show dsE = (if arguments_raw ≠ "" then process_arguments arguments_raw
                        else (some [], [])).2 from congrArg Prod.snd heqE.symm]
                    exact hE
                  rw [show (if return_value_raw ≠ "" then process_return_value return_value_raw
                        else (some [], [])) =
                      ((if return_value_raw ≠ "" then process_return_value return_value_raw
                        else (some [], [])).1,
                       (if return_value_raw ≠ "" then process_return_value return_value_raw
                        else (some [], [])).2) from rfl]
                  split
                  case h_1 dsF heqF =>
                    rw [show dsF = (if return_value_raw ≠ "" then
                          process_return_value return_value_raw else (some [], [])).2
                        from congrArg Prod.snd heqF.symm]
                    exact diagsBounded_append _ _ (diagsBounded_append _ _ hHead hE0) hF
                  case h_2 rv dsF heqF =>
                    rw [show dsF = (if return_value_raw ≠ "" then
                          process_return_value return_value_raw else (some [], [])).2
                        from congrArg Prod.snd heqF.symm]
                    exact diagsBounded_append _ _ (diagsBounded_append _ _ hHead hE0) hF

end DocFns

namespace DocFns

theorem import_header_bounded (code : String) :
    diagsBounded (import_header code).2 := by
  unfold import_header
  split
  · exact diagsBounded_nil
  · exact diagsBounded_single 3 _ (by omega)

theorem processFile_bounded (code : String) (debug : Bool) :
    diagsBounded (processFile code debug).2 := by
  unfold processFile
  rw [show import_header code = ((import_header code).1, (import_header code).2) from rfl]
  dsimp only
  have h0 := import_header_bounded code
  split
  · exact h0
  · have h1 := process_header_bounded (import_header code).1 debug
    split
    case h_1 d heq =>
      rw [heq] at h1
      exact diagsBounded_append _ _ h0 h1
    case h_2 r d heq =>
      rw [heq] at h1
      refine diagsBounded_append _ _ (diagsBounded_append _ _ h0 h1) ?_
      split
      · exact diagsBounded_single 0 _ (by omega)
      · exact diagsBounded_nil

theorem C10_severity_in_bounds (code : String) (debug : Bool) :
    ∀ d ∈ (processFile code debug).2,
      ∃ lbl, severityLabels.get? d.level = some lbl ∧
        (lbl = "Info" ∨ lbl = "Warning" ∨ lbl = "Error" ∨ lbl = "Aborted") := by
  intro d hd
  have h4 := processFile_bounded code debug d hd
  have hcase : d.level = 0 ∨ d.level = 1 ∨ d.level = 2 ∨ d.level = 3 := by omega
  rcases hcase with h | h | h | h <;> rw [h]
  · exact ⟨"Info", rfl, Or.inl rfl⟩
  · exact ⟨"Warning", rfl, Or.inr (Or.inl rfl)⟩
  · exact ⟨"Error", rfl, Or.inr (Or.inr (Or.inl rfl))⟩
  · exact ⟨"Aborted", rfl, Or.inr (Or.inr (Or.inr rfl))⟩

theorem C10_severity_in_bounds_w :
    ∃ lbl, severityLabels.get? (Diag.level ⟨3, "Missing header"⟩) = some lbl ∧
      (lbl = "Info" ∨ lbl = "Warning" ∨ lbl = "Error" ∨ lbl = "Aborted") :=
  C10_severity_in_bounds "x" false ⟨3, "Missing header"⟩ (by decide)

end DocFns

namespace DocFns

theorem scanClose_sound (l : List Char) :
    ∀ m r, scanClose l = some (m, r) → l = m ++ '*' :: '/' :: r := by
  induction l with
  | nil => intro m r h; simp [scanClose] at h
  | cons c rest ih =>
      intro m r h
      rw [scanClose.eq_def] at h
      split at h
      · simp at h
      · rename_i rest2 heq
        rw [Option.some.injEq, Prod.mk.injEq] at h
        rw [← h.1, ← h.2, heq]
        rfl
      · rename_i c2 rest2 hne heq
        injection heq with hc hrest
        subst hc
        subst hrest
        cases hs : scanClose rest with
        | none => rw [hs] at h; simp at h
        | some p =>
            obtain ⟨m0, r0⟩ := p
            rw [hs] at h
            simp only [Option.some.injEq, Prod.mk.injEq] at h
            obtain ⟨h1, h2⟩ := h
            subst h1
            subst h2
            rw [ih m0 r0 hs]
            rfl

theorem scanClose_min (l : List Char) :
    ∀ m r, scanClose l = some (m, r) →
      ∀ m' r', l = m' ++ '*' :: '/' :: r' → m.length ≤ m'.length := by
  induction l with
  | nil => intro m r h; simp [scanClose] at h
  | cons c rest ih =>
      intro m r h m' r' hd
      rw [scanClose.eq_def] at h
      split at h
      · simp at h
      · rename_i rest2 heq
        rw [Option.some.injEq, Prod.mk.injEq] at h
        rw [← h.1]
        simp
      · rename_i c2 rest2 hne heq
        injection heq with hc hrest
        subst hc
        subst hrest
        cases hs : scanClose rest with
        | none => rw [hs] at h; simp at h
        | some p =>
            obtain ⟨m0, r0⟩ := p
            rw [hs] at h
            simp only [Option.some.injEq, Prod.mk.injEq] at h
            obtain ⟨h1, h2⟩ := h
            subst h1
            subst h2
            cases m' with
            | nil =>
                simp only [List.nil_append] at hd
                injection hd with hd1 hd2
                exact absurd (hne r' hd1 hd2) not_false
            | cons c' m'' =>
                injection hd with hd1 hd2
                simp only [List.length_cons, Nat.succ_le_succ_iff]
                exact ih m0 r0 hs m'' r' hd2

theorem scanClose_none (l : List Char) :
    scanClose l = none → ∀ m r, l ≠ m ++ '*' :: '/' :: r := by
  induction l with
  | nil => intro _ m r hd; exact absurd hd (by simp)
  | cons c rest ih =>
      intro h m r hd
      rw [scanClose.eq_def] at h
      split at h
      · rename_i heq; exact absurd heq (by simp)
      · simp at h
      · rename_i c2 rest2 hne heq
        injection heq with hc hrest
        subst hc
        subst hrest
        cases hs : scanClose rest with
        | some p => rw [hs] at h; simp at h
        | none =>
            cases m with
            | nil =>
                simp only [List.nil_append] at hd
                injection hd with hd1 hd2
                exact hne r hd1 hd2
            | cons c' m'' =>
                injection hd with hd1 hd2
                exact ih hs m'' r hd2

end DocFns

namespace DocFns

theorem all_takeWhile (p : Char → Bool) (l : List Char) : (l.takeWhile p).all p = true := by
  induction l with
  | nil => rfl
  | cons c rest ih =>
      rw [List.takeWhile_cons]
      split
      · rename_i hp
        rw [List.all_cons, hp]
        simpa using ih
      · rfl

theorem dropWhile_all_append (p : Char → Bool) (ws : List Char) (c : Char) (t : List Char)
    (hws : ws.all p = true) (hc : p c = false) :
    (ws ++ c :: t).dropWhile p = c :: t ∧ (ws ++ c :: t).takeWhile p = ws := by
  induction ws with
  | nil =>
      constructor
      · rw [List.nil_append, List.dropWhile_cons, hc]
        simp
      · rw [List.nil_append, List.takeWhile_cons, hc]
        simp
  | cons w ws' ih =>
      rw [List.all_cons, Bool.and_eq_true] at hws
      obtain ⟨hw, hws'⟩ := hws
      obtain ⟨ih1, ih2⟩ := ih hws'
      constructor
      · rw [List.cons_append, List.dropWhile_cons, hw]
        simpa using ih1
      · rw [List.cons_append, List.takeWhile_cons, hw]
        simpa using ih2

/-- The claim's header-presence condition, following the spec's words
(§4.1): after skipping leading whitespace the text begins with the
opening delimiter and a closing delimiter follows. -/
def headerPresentClaim (code : String) : Prop :=
  ∃ ws mid rest : List Char,
    code.data = ws ++ '/' :: '*' :: (mid ++ '*' :: '/' :: rest) ∧ ws.all isPySpace = true

/-- The amended presence condition: additionally at least one character
stands between the delimiters (the `.+?` of the source pattern). -/
def headerPresentAmended (code : String) : Prop :=
  ∃ ws mid rest : List Char,
    code.data = ws ++ '/' :: '*' :: (mid ++ '*' :: '/' :: rest) ∧
      ws.all isPySpace = true ∧ mid ≠ []

/-- C4 (counterexample): the claim's iff fails on `"/**/"` — the text
begins with the opening delimiter and a closing delimiter follows, so
the claim calls the header present, but the source pattern's `.+?`
requires at least one character between the delimiters, so the code
reports `Missing header` and leaves the header empty. -/
theorem C4_header_iff_cex :
    headerPresentClaim "/**/" ∧ extractHeader "/**/" = none ∧
      import_header "/**/" = ("", [⟨3, "Missing header"⟩]) :=
  ⟨⟨[], [], [], rfl, rfl⟩, rfl, rfl⟩

/-- C4 (amended): header extraction succeeds iff the text, after
skipping leading whitespace, begins with the opening delimiter and a
closing delimiter follows with at least one character in between; the
extracted header is the shortest such span (scanning across newlines),
and when no such block exists exactly one Aborted `Missing header`
diagnostic is emitted and the header stays empty. -/
theorem C4_header_iff (code : String) :
    ((extractHeader code).isSome ↔ headerPresentAmended code) ∧
    (∀ h, extractHeader code = some h →
      ∃ ws mid rest : List Char,
        code.data = ws ++ '/' :: '*' :: (mid ++ '*' :: '/' :: rest) ∧
          ws.all isPySpace = true ∧ mid ≠ [] ∧
          h.data = ws ++ '/' :: '*' :: (mid ++ '*' :: '/' :: []) ∧
          (∀ mid' rest', mid ++ '*' :: '/' :: rest = mid' ++ '*' :: '/' :: rest' →
            mid' ≠ [] → mid.length ≤ mid'.length)) ∧
    (extractHeader code = none → import_header code = ("", [⟨3, "Missing header"⟩])) ∧
    (∀ h, extractHeader code = some h → import_header code = (h, [])) := by
  have hmain : ∀ h, extractHeader code = some h →
      ∃ ws mid rest : List Char,
        code.data = ws ++ '/' :: '*' :: (mid ++ '*' :: '/' :: rest) ∧
          ws.all isPySpace = true ∧ mid ≠ [] ∧
          h.data = ws ++ '/' :: '*' :: (mid ++ '*' :: '/' :: []) ∧
          (∀ mid' rest', mid ++ '*' :: '/' :: rest = mid' ++ '*' :: '/' :: rest' →
            mid' ≠ [] → mid.length ≤ mid'.length) := by
    intro h hh
    unfold extractHeader at hh
    split at hh
    case h_1 c rest heq =>
      cases hs : scanClose rest with
      | none => rw [hs] at hh; simp at hh
      | some p =>
          obtain ⟨m, r⟩ := p
          rw [hs] at hh
          simp only [Option.some.injEq] at hh
          have hrest := scanClose_sound rest m r hs
          refine ⟨code.data.takeWhile isPySpace, c :: m, r, ?_, all_takeWhile _ _, by simp, ?_, ?_⟩
          · conv_lhs => rw [← List.takeWhile_append_dropWhile (p := isPySpace) (l := code.data)]
            rw [heq, hrest]
            rfl
          · rw [← hh]
            rfl
          · intro mid' rest' hsplit hne
            cases mid' with
            | nil => exact absurd rfl hne
            | cons c' mid'' =>
                injection hsplit with h1 h2
                simp only [List.length_cons, Nat.succ_le_succ_iff]
                exact scanClose_min rest m r hs mid'' rest' (by rw [hrest]; exact h2)
    case h_2 =>
      exact absurd hh (by simp)
  have hiff : (extractHeader code).isSome ↔ headerPresentAmended code := by
    constructor
    · intro hs
      rw [Option.isSome_iff_exists] at hs
      obtain ⟨h, hh⟩ := hs
      obtain ⟨ws, mid, rest, hcode, hws, hmid, _, _⟩ := hmain h hh
      exact ⟨ws, mid, rest, hcode, hws, hmid⟩
    · rintro ⟨ws, mid, rest, hcode, hws, hmid⟩
      cases mid with
      | nil => exact absurd rfl hmid
      | cons c mid0 =>
          unfold extractHeader
          have hdrop := dropWhile_all_append isPySpace ws '/'
            ('*' :: (c :: mid0 ++ '*' :: '/' :: rest)) hws rfl
          dsimp only
          rw [hcode, hdrop.1]
          cases hs : scanClose (mid0 ++ '*' :: '/' :: rest) with
          | none => exact absurd rfl (scanClose_none _ hs mid0 rest)
          | some p =>
              obtain ⟨m, r⟩ := p
              simp [hs]
  exact ⟨hiff, hmain, fun hn => by unfold import_header; rw [hn],
    fun h hh => by unfold import_header; rw [hh]⟩

end DocFns

namespace DocFns

/-- C4 witness: instances of the amended theorem at a text with no
block comment and at one with a present header. -/
theorem C4_header_iff_w :
    import_header "no comment" = ("", [⟨3, "Missing header"⟩]) ∧
    import_header "  /* x */ tail" = ("  /* x */", []) :=
  ⟨(C4_header_iff "no comment").2.2.1 (by decide),
   (C4_header_iff "  /* x */ tail").2.2.2 "  /* x */" (by decide)⟩

end DocFns

namespace DocFns

theorem nlLinesAux_noNL (p : List Char) (hp : '\n' ∉ p) :
    ∀ cur t, nlLinesAux cur (p ++ t) = nlLinesAux (p.reverse ++ cur) t := by
  induction p with
  | nil => intro cur t; rfl
  | cons c p' ih =>
      intro cur t
      have hc : c ≠ '\n' := fun h => hp (h ▸ List.mem_cons_self c p')
      have hp' : '\n' ∉ p' := fun h => hp (List.mem_cons_of_mem c h)
      rw [List.cons_append, nlLinesAux, if_neg hc, ih hp' (c :: cur) t]
      simp

theorem nlLinesAux_flatten (b : List Char) :
    ∀ cur, (nlLinesAux cur b).flatten = cur.reverse ++ b := by
  induction b with
  | nil =>
      intro cur
      rw [nlLinesAux]
      split
      · rename_i h
        rw [List.isEmpty_iff] at h
        simp [h]
      · simp
  | cons c b' ih =>
      intro cur
      rw [nlLinesAux]
      split
      · rename_i hc
        subst hc
        rw [List.flatten_cons, ih []]
        simp
      · rename_i hc
        rw [ih (c :: cur)]
        simp

theorem nlLines_flatten (b : List Char) : (nlLines b).flatten = b :=
  nlLinesAux_flatten b []

theorem nlLines_nil_iff (b : List Char) : nlLines b = [] → b = [] := by
  intro h
  have := nlLines_flatten b
  rw [h] at this
  simpa using this.symm

theorem nlLinesAux_shift (t : List Char) :
    ∀ cur h tl, nlLinesAux [] t = h :: tl → nlLinesAux cur t = (cur.reverse ++ h) :: tl := by
  induction t with
  | nil => intro cur h tl hyp; exact absurd hyp (by simp [nlLinesAux])
  | cons c t' ih =>
      intro cur h tl hyp
      by_cases hc : c = '\n'
      · subst hc
        rw [nlLinesAux, if_pos rfl] at hyp ⊢
        rw [List.cons.injEq] at hyp
        rw [← hyp.1, ← hyp.2]
        simp
      · rw [nlLinesAux, if_neg hc] at hyp ⊢
        cases ht : nlLinesAux [] t' with
        | nil =>
            have ht0 : t' = [] := nlLines_nil_iff t' ht
            subst ht0
            rw [show nlLinesAux [c] ([] : List Char) = [[c]] from rfl] at hyp
            rw [List.cons.injEq] at hyp
            rw [show nlLinesAux (c :: cur) ([] : List Char) = [(c :: cur).reverse] from rfl]
            rw [← hyp.1, ← hyp.2]
            simp
        | cons h' tl' =>
            rw [ih [c] h' tl' ht] at hyp
            rw [List.cons.injEq] at hyp
            rw [ih (c :: cur) h' tl' ht, ← hyp.1, ← hyp.2]
            simp

theorem nlLines_cons_nl (b : List Char) : nlLines ('\n' :: b) = ['\n'] :: nlLines b := by
  unfold nlLines
  rw [nlLinesAux, if_pos rfl]
  rfl

theorem nlLines_append_endsNL (a : List Char) :
    ∀ b, a ≠ [] → a.getLast? = some '\n' →
      nlLines (a ++ b) = nlLines a ++ nlLines b := by
  induction a with
  | nil => intro b h _; exact absurd rfl h
  | cons c a' ih =>
      intro b _ hlast
      cases a' with
      | nil =>
          rw [List.getLast?_singleton, Option.some.injEq] at hlast
          subst hlast
          rw [List.cons_append, nlLines_cons_nl, nlLines_cons_nl]
          rfl
      | cons x xs =>
          rw [List.getLast?_cons_cons] at hlast
          have hx : x :: xs ≠ [] := by simp
          by_cases hc : c = '\n'
          · subst hc
            rw [List.cons_append, nlLines_cons_nl, nlLines_cons_nl, ih b hx hlast]
            rfl
          · have hstep : ∀ t, nlLines (c :: t) = nlLinesAux [c] t := by
              intro t
              unfold nlLines
              rw [nlLinesAux, if_neg hc]
            rw [List.cons_append, hstep, hstep]
            cases ha : nlLines (x :: xs) with
            | nil => exact absurd (nlLines_nil_iff _ ha) hx
            | cons h tl =>
                have hab := ih b hx hlast
                rw [ha] at hab
                have h1 : nlLinesAux ([] : List Char) ((x :: xs) ++ b) = h :: (tl ++ nlLines b) := by
                  rw [show nlLinesAux ([] : List Char) ((x :: xs) ++ b) =
                        nlLines ((x :: xs) ++ b) from rfl, hab]
                  rfl
                rw [nlLinesAux_shift _ [c] h (tl ++ nlLines b) h1,
                    nlLinesAux_shift _ [c] h tl ha]
                rfl

end DocFns

namespace DocFns

theorem splitGo_markerFree (L : List (List Char)) :
    ∀ (t : List (List Char)) (acc : List Char),
      (∀ l ∈ L, matchMarker l = none) →
      splitGo (L ++ t) acc = splitGo t (acc ++ L.flatten) := by
  induction L with
  | nil => intro t acc _; simp
  | cons l L' ih =>
      intro t acc hfree
      rw [List.cons_append, splitGo, hfree l (List.mem_cons_self l L')]
      rw [ih t (acc ++ l) (fun x hx => hfree x (List.mem_cons_of_mem l hx))]
      simp

theorem splitGo_done (L : List (List Char)) (acc : List Char)
    (hfree : ∀ l ∈ L, matchMarker l = none) :
    splitGo L acc = [acc ++ L.flatten] := by
  have := splitGo_markerFree L [] acc hfree
  rw [List.append_nil] at this
  rw [this]
  rfl

/-- The five recognized section names as strings. -/
def fiveNames : List String := ["Author", "Argument", "Return Value", "Example", "Public"]

theorem marker_match (n : String) (hn : n ∈ fiveNames) (t : List Char) :
    matchMarker (n.data ++ ':' :: t) = some (n.data, eatOneSpace t) := by
  fin_cases hn <;>
    simp [matchMarker, matchMarkerIn, sectionKeywords, dropLit, markerTail]

end DocFns

namespace DocFns

/-- The plural form of a marker also captures the bare keyword. -/
theorem marker_match_plural (n : String) (hn : n ∈ fiveNames) (t : List Char) :
    matchMarker ((n.data ++ ['s']) ++ ':' :: t) = some (n.data, eatOneSpace t) := by
  fin_cases hn <;>
    simp [matchMarker, matchMarkerIn, sectionKeywords, dropLit, markerTail]

theorem name_noNL_colon (n : String) (hn : n ∈ fiveNames) : '\n' ∉ (n.data ++ [':']) := by
  fin_cases hn <;> decide

theorem splitGo_chunk (nm : List Char) (n : String)
    (hm : ∀ t, matchMarker (nm ++ ':' :: t) = some (n.data, eatOneSpace t))
    (hnm : '\n' ∉ (nm ++ [':'])) (sep : Char)
    (hsep : isPySpace sep = true) (b : List Char)
    (hfree : ∀ l ∈ nlLines b, matchMarker l = none)
    (hend : b.getLast? = some '\n' ∨ (b = [] ∧ sep = '\n'))
    (T : List Char) (acc : List Char) :
    splitGo (nlLines ((nm ++ ':' :: sep :: b) ++ T)) acc
      = acc :: n.data :: splitGo (nlLines T) b := by
  by_cases hsepnl : sep = '\n'
  · subst hsepnl
    have hshape : (nm ++ ':' :: '\n' :: b) ++ T
        = (nm ++ [':']) ++ '\n' :: (b ++ T) := by simp
    have hlines : nlLines ((nm ++ ':' :: '\n' :: b) ++ T)
        = (nm ++ [':', '\n']) :: nlLines (b ++ T) := by
      rw [hshape]
      unfold nlLines
      rw [nlLinesAux_noNL (nm ++ [':']) hnm [] ('\n' :: (b ++ T))]
      rw [nlLinesAux, if_pos rfl]
      simp
    have hmm2 := hm ['\n']
    rw [show eatOneSpace ['\n'] = [] from rfl] at hmm2
    rw [show nm ++ [':', '\n'] = nm ++ ':' :: ['\n'] from by simp] at hlines
    rw [hlines, splitGo, hmm2]
    dsimp only
    rcases hend with hendnl | ⟨hb, _⟩
    · have hbne : b ≠ [] := by
        intro h
        rw [h] at hendnl
        exact absurd hendnl (by simp)
      rw [nlLines_append_endsNL b T hbne hendnl,
          splitGo_markerFree (nlLines b) (nlLines T) [] hfree,
          List.nil_append, nlLines_flatten]
    · subst hb
      rfl
  · have hbne : b ≠ [] := by
      rcases hend with hendnl | ⟨_, hsep2⟩
      · intro h
        rw [h] at hendnl
        exact absurd hendnl (by simp)
      · exact absurd hsep2 hsepnl
    have hendnl : b.getLast? = some '\n' := by
      rcases hend with hendnl | ⟨hb, _⟩
      · exact hendnl
      · exact absurd hb hbne
    have hpnl : '\n' ∉ (nm ++ ':' :: sep :: []) := by
      intro hmem
      rw [show nm ++ ':' :: sep :: [] = (nm ++ [':']) ++ [sep] from by simp] at hmem
      rcases List.mem_append.1 hmem with hmem | hmem
      · exact hnm hmem
      · rw [List.mem_singleton] at hmem
        exact hsepnl hmem.symm
    cases hbl : nlLines b with
    | nil => exact absurd (nlLines_nil_iff b hbl) hbne
    | cons h tl =>
        have hlines : nlLines ((nm ++ ':' :: sep :: b) ++ T)
            = ((nm ++ ':' :: sep :: []) ++ h) :: (tl ++ nlLines T) := by
          rw [show (nm ++ ':' :: sep :: b) ++ T
              = (nm ++ ':' :: sep :: []) ++ (b ++ T) from by simp]
          unfold nlLines
          rw [nlLinesAux_noNL _ hpnl [] (b ++ T)]
          have hbt : nlLinesAux ([] : List Char) (b ++ T) = h :: (tl ++ nlLines T) := by
            rw [show nlLinesAux ([] : List Char) (b ++ T) = nlLines (b ++ T) from rfl,
                nlLines_append_endsNL b T hbne hendnl, hbl]
            rfl
          rw [List.append_nil,
              nlLinesAux_shift (b ++ T) (nm ++ ':' :: sep :: []).reverse h
                (tl ++ nlLines T) hbt]
          simp [nlLines]
        have hmm2 := hm (sep :: h)
        rw [show eatOneSpace (sep :: h) = h from by rw [eatOneSpace, if_pos hsep]] at hmm2
        rw [hlines, splitGo,
            show (nm ++ ':' :: sep :: []) ++ h = nm ++ ':' :: sep :: h from by simp,
            hmm2]
        dsimp only
        rw [splitGo_markerFree tl (nlLines T) h
            (fun x hx => hfree x (by rw [hbl]; exact List.mem_cons_of_mem h hx))]
        rw [show h ++ tl.flatten = b from by
          rw [show h ++ tl.flatten = (h :: tl).flatten from rfl, ← hbl, nlLines_flatten]]

end DocFns

namespace DocFns

theorem splitGo_chunk_last (nm : List Char) (n : String)
    (hm : ∀ t, matchMarker (nm ++ ':' :: t) = some (n.data, eatOneSpace t))
    (hnm : '\n' ∉ (nm ++ [':'])) (sep : Char)
    (hsep : isPySpace sep = true) (b : List Char)
    (hfree : ∀ l ∈ nlLines b, matchMarker l = none) (acc : List Char) :
    splitGo (nlLines (nm ++ ':' :: sep :: b)) acc = [acc, n.data, b] := by
  by_cases hsepnl : sep = '\n'
  · subst hsepnl
    have hlines : nlLines (nm ++ ':' :: '\n' :: b)
        = (nm ++ [':', '\n']) :: nlLines b := by
      rw [show nm ++ ':' :: '\n' :: b = (nm ++ [':']) ++ '\n' :: b from by simp]
      unfold nlLines
      rw [nlLinesAux_noNL (nm ++ [':']) hnm [] ('\n' :: b)]
      rw [nlLinesAux, if_pos rfl]
      simp
    have hmm2 := hm ['\n']
    rw [show eatOneSpace ['\n'] = [] from rfl] at hmm2
    rw [show nm ++ [':', '\n'] = nm ++ ':' :: ['\n'] from by simp] at hlines
    rw [hlines, splitGo, hmm2]
    dsimp only
    rw [splitGo_done (nlLines b) [] hfree, List.nil_append, nlLines_flatten]
  · have hpnl : '\n' ∉ (nm ++ ':' :: sep :: []) := by
      intro hmem
      rw [show nm ++ ':' :: sep :: [] = (nm ++ [':']) ++ [sep] from by simp] at hmem
      rcases List.mem_append.1 hmem with hmem | hmem
      · exact hnm hmem
      · rw [List.mem_singleton] at hmem
        exact hsepnl hmem.symm
    cases hbl : nlLines b with
    | nil =>
        have hb : b = [] := nlLines_nil_iff b hbl
        subst hb
        have hmm2 := hm (sep :: [])
        rw [show eatOneSpace (sep :: []) = [] from by rw [eatOneSpace, if_pos hsep]] at hmm2
        have hlines : nlLines (nm ++ ':' :: sep :: ([] : List Char))
            = [nm ++ ':' :: sep :: []] := by
          unfold nlLines
          rw [show nm ++ ':' :: sep :: ([] : List Char)
              = (nm ++ ':' :: sep :: []) ++ [] from by simp]
          rw [nlLinesAux_noNL _ hpnl [] []]
          rw [nlLinesAux]
          simp
        rw [hlines, splitGo, hmm2]
        rfl
    | cons h tl =>
        have hbne : b ≠ [] := by
          intro hb
          rw [hb] at hbl
          exact absurd hbl (by simp [nlLines, nlLinesAux])
        have hlines : nlLines (nm ++ ':' :: sep :: b)
            = ((nm ++ ':' :: sep :: []) ++ h) :: tl := by
          rw [show nm ++ ':' :: sep :: b = (nm ++ ':' :: sep :: []) ++ b from by simp]
          unfold nlLines
          rw [nlLinesAux_noNL _ hpnl [] b, List.append_nil,
              nlLinesAux_shift b (nm ++ ':' :: sep :: []).reverse h tl hbl]
          simp
        have hmm2 := hm (sep :: h)
        rw [show eatOneSpace (sep :: h) = h from by rw [eatOneSpace, if_pos hsep]] at hmm2
        rw [hlines, splitGo,
            show (nm ++ ':' :: sep :: []) ++ h = nm ++ ':' :: sep :: h from by simp,
            hmm2]
        dsimp only
        rw [splitGo_done tl h (fun x hx => hfree x (by rw [hbl]; exact List.mem_cons_of_mem h hx))]
        rw [show h ++ tl.flatten = b from by
          rw [show h ++ tl.flatten = (h :: tl).flatten from rfl, ← hbl, nlLines_flatten]]

end DocFns

namespace DocFns

/-- One authored header section: a recognized name, whether the marker is
written with the pluralizing `s`, the single whitespace character after
the colon (consumed by the marker pattern's `\s?`), and the raw body
that follows. -/
structure Sec where
  name : String
  plural : Bool
  sep : Char
  body : String
deriving DecidableEq, Repr

/-- The marker keyword as authored (with the optional plural `s`). -/
def secMarker (s : Sec) : List Char :=
  s.name.data ++ (if s.plural then ['s'] else [])

/-- The authored text of one section. -/
def mkChunk (s : Sec) : List Char :=
  secMarker s ++ ':' :: s.sep :: s.body.data

/-- A normalized header text: the unnamed leading fragment (the text
before the first marker, discarded by the split) followed by the
authored sections in a given order. -/
def mkHeaderC3 (pre : String) (secs : List Sec) : String :=
  String.mk (pre.data ++ (secs.map mkChunk).flatten)

theorem secMarker_match (s : Sec) (hn : s.name ∈ fiveNames) (t : List Char) :
    matchMarker (secMarker s ++ ':' :: t) = some (s.name.data, eatOneSpace t) := by
  unfold secMarker
  cases hp : s.plural
  · rw [if_neg (by simp [hp]), List.append_nil]
    exact marker_match s.name hn t
  · rw [if_pos rfl]
    exact marker_match_plural s.name hn t

theorem secMarker_noNL (s : Sec) (hn : s.name ∈ fiveNames) :
    '\n' ∉ (secMarker s ++ [':']) := by
  unfold secMarker
  cases hp : s.plural
  · rw [if_neg (by simp [hp]), List.append_nil]
    exact name_noNL_colon s.name hn
  · rw [if_pos rfl]
    intro hmem
    rcases List.mem_append.1 hmem with hmem | hmem
    · rcases List.mem_append.1 hmem with hmem | hmem
      · exact name_noNL_colon s.name hn (List.mem_append.2 (Or.inl hmem))
      · simp at hmem
    · simp at hmem

theorem splitGo_mkHeader (secs : List Sec) :
    ∀ acc : List Char, secs ≠ [] →
      (∀ p ∈ secs, p.name ∈ fiveNames) →
      (∀ p ∈ secs, isPySpace p.sep = true) →
      (∀ p ∈ secs, ∀ l ∈ nlLines p.body.data, matchMarker l = none) →
      (∀ p ∈ secs.dropLast,
        p.body.data.getLast? = some '\n' ∨ (p.body.data = [] ∧ p.sep = '\n')) →
      splitGo (nlLines (secs.map mkChunk).flatten) acc
        = acc :: (secs.map (fun p => [p.name.data, p.body.data])).flatten := by
  induction secs with
  | nil => intro acc h; exact absurd rfl h
  | cons p rest ih =>
      intro acc _ h1 h2 h3 h4
      cases rest with
      | nil =>
          rw [List.map_cons, List.map_nil, List.flatten_cons, List.flatten_nil,
              List.append_nil]
          rw [show mkChunk p = secMarker p ++ ':' :: p.sep :: p.body.data from rfl]
          rw [splitGo_chunk_last (secMarker p) p.name
              (secMarker_match p (h1 p (List.mem_cons_self p [])))
              (secMarker_noNL p (h1 p (List.mem_cons_self p []))) p.sep
              (h2 p (List.mem_cons_self p [])) p.body.data
              (h3 p (List.mem_cons_self p [])) acc]
          rfl
      | cons q rest' =>
          rw [List.map_cons, List.flatten_cons]
          rw [show mkChunk p = secMarker p ++ ':' :: p.sep :: p.body.data from rfl]
          have hmem : p ∈ (p :: q :: rest').dropLast := by
            rw [List.dropLast_cons₂]
            exact List.mem_cons_self p _
          rw [splitGo_chunk (secMarker p) p.name
              (secMarker_match p (h1 p (List.mem_cons_self p _)))
              (secMarker_noNL p (h1 p (List.mem_cons_self p _))) p.sep
              (h2 p (List.mem_cons_self p _)) p.body.data
              (h3 p (List.mem_cons_self p _)) (h4 p hmem) _ acc]
          rw [ih p.body.data (by simp)
              (fun x hx => h1 x (List.mem_cons_of_mem p hx))
              (fun x hx => h2 x (List.mem_cons_of_mem p hx))
              (fun x hx => h3 x (List.mem_cons_of_mem p hx))
              (fun x hx => h4 x (by rw [List.dropLast_cons₂]; exact List.mem_cons_of_mem p hx))]
          rfl

theorem splitSections_mkHeader (pre : String) (secs : List Sec)
    (hpre : pre = "" ∨ pre.data.getLast? = some '\n')
    (hpref : ∀ l ∈ nlLines pre.data, matchMarker l = none)
    (hne : secs ≠ [])
    (h1 : ∀ p ∈ secs, p.name ∈ fiveNames)
    (h2 : ∀ p ∈ secs, isPySpace p.sep = true)
    (h3 : ∀ p ∈ secs, ∀ l ∈ nlLines p.body.data, matchMarker l = none)
    (h4 : ∀ p ∈ secs.dropLast,
        p.body.data.getLast? = some '\n' ∨ (p.body.data = [] ∧ p.sep = '\n')) :
    splitSections (mkHeaderC3 pre secs)
      = pre :: (secs.map (fun p => [p.name, p.body])).flatten := by
  unfold splitSections mkHeaderC3
  rw [show (String.mk (pre.data ++ (secs.map mkChunk).flatten)).data
      = pre.data ++ (secs.map mkChunk).flatten from rfl]
  rcases hpre with hpre | hpre
  · subst hpre
    rw [show ("" : String).data = ([] : List Char) from rfl, List.nil_append]
    rw [splitGo_mkHeader secs [] hne h1 h2 h3 h4]
    rw [List.map_cons, List.map_flatten, List.map_map]
    rfl
  · have hpne : pre.data ≠ [] := by
      intro h
      rw [h] at hpre
      exact absurd hpre (by simp)
    rw [show nlLines (pre.data ++ (secs.map mkChunk).flatten)
        = nlLines pre.data ++ nlLines (secs.map mkChunk).flatten from
      nlLines_append_endsNL pre.data _ hpne hpre]
    rw [splitGo_markerFree (nlLines pre.data) _ [] hpref]
    rw [List.nil_append, nlLines_flatten]
    rw [splitGo_mkHeader secs pre.data hne h1 h2 h3 h4]
    rw [List.map_cons, List.map_flatten, List.map_map]
    rfl

theorem findIdx?_notfound_then (pre : List String) (n : String) :
    ∀ i t, (∀ x ∈ pre, (x == n) = false) →
      List.findIdx? (· == n) (pre ++ n :: t) i = some (i + pre.length) := by
  induction pre with
  | nil =>
      intro i t _
      rw [List.nil_append, List.findIdx?_cons, if_pos (beq_self_eq_true n)]
      rfl
  | cons x pre' ih =>
      intro i t hall
      rw [List.cons_append, List.findIdx?_cons,
          if_neg (by rw [hall x (List.mem_cons_self x pre')]; exact Bool.false_ne_true)]
      rw [ih (i + 1) t (fun y hy => hall y (List.mem_cons_of_mem x hy))]
      rw [Option.some.injEq, List.length_cons]
      omega

theorem get_section_found (pre : List String) (n b : String) (t : List String)
    (hall : ∀ x ∈ pre, x ≠ n) :
    get_section (pre ++ n :: b :: t) n = (some b, []) := by
  unfold get_section
  rw [findIdx?_notfound_then pre n 0 (b :: t)
      (fun x hx => beq_eq_false_iff_ne.mpr (hall x hx))]
  rw [Nat.zero_add]
  dsimp only
  rw [List.get?_append_right (by omega)]
  rw [show pre.length + 1 - pre.length = 1 from by omega]
  rfl

theorem get_section_missing (sections : List String) (n : String)
    (hn : n ∉ sections) :
    get_section sections n = (some "", [⟨2, "Missing " ++ quoted n ++ " header section"⟩]) := by
  unfold get_section
  rw [show List.findIdx? (· == n) sections = none from
    List.findIdx?_eq_none_iff.mpr (fun x hx =>
      beq_eq_false_iff_ne.mpr (fun h => hn (h ▸ hx)))]

theorem name_ne_empty (n : String) (hn : n ∈ fiveNames) : n ≠ "" := by
  fin_cases hn <;> decide

theorem name_not_endsNL (n : String) (hn : n ∈ fiveNames) :
    n.data.getLast? ≠ some '\n' := by
  fin_cases hn <;> decide

end DocFns

namespace DocFns

/-- The possible ends of a normalized header text and of every text
piece of its split: empty, a newline, or the slash of the closing
comment delimiter. -/
def goodEnd (l : List Char) : Prop :=
  l = [] ∨ l.getLast? = some '\n' ∨ l.getLast? = some '/'

theorem ne_nil_of_getLast (l : List Char) (c : Char) (h : l.getLast? = some c) :
    l ≠ [] := by
  intro h0
  rw [h0] at h
  exact absurd h (by simp)

theorem getLast?_append_ne (a : List Char) (l : List Char) (h : l ≠ []) :
    (a ++ l).getLast? = l.getLast? := by
  rw [List.getLast?_append]
  cases hl : l.getLast? with
  | none =>
      exfalso
      cases l with
      | nil => exact h rfl
      | cons x xs => simp at hl
  | some c => rfl

theorem nlLinesAux_piece_last (t : List Char) :
    ∀ cur l, l ∈ nlLinesAux cur t →
      l.getLast? = some '\n' ∨ l.getLast? = (cur.reverse ++ t).getLast? := by
  induction t with
  | nil =>
      intro cur l hl
      rw [nlLinesAux] at hl
      split at hl
      · cases hl
      · rw [List.mem_singleton] at hl
        subst hl
        right
        rw [List.append_nil]
  | cons c t' ih =>
      intro cur l hl
      rw [nlLinesAux] at hl
      split at hl
      · rename_i hc
        subst hc
        rcases List.mem_cons.1 hl with h0 | h0
        · left
          rw [h0, List.getLast?_reverse]
          rfl
        · cases ht' : t' with
          | nil =>
              rw [ht'] at h0
              cases h0
          | cons y ys =>
              rcases ih [] l h0 with h | h
              · exact Or.inl h
              · right
                rw [h, List.reverse_nil, List.nil_append, ht',
                    getLast?_append_ne cur.reverse _ (by simp),
                    List.getLast?_cons_cons]
      · rename_i hc
        rcases ih (c :: cur) l hl with h | h
        · exact Or.inl h
        · right
          rw [h]
          congr 1
          simp

theorem dropLit_sound (k : List Char) :
    ∀ s t, dropLit k s = some t → s = k ++ t := by
  induction k with
  | nil =>
      intro s t h
      rw [dropLit, Option.some.injEq] at h
      rw [h]
      rfl
  | cons c k' ih =>
      intro s t h
      cases s with
      | nil => exact absurd h (by rw [dropLit]; simp)
      | cons x s' =>
          rw [dropLit] at h
          split at h
          · rename_i hx
            rw [List.cons_append, ← ih s' t h, hx]
          · exact absurd h (by simp)

theorem eatOneSpace_suffix (l : List Char) : ∃ p, l = p ++ eatOneSpace l := by
  cases l with
  | nil => exact ⟨[], rfl⟩
  | cons c r =>
      rw [eatOneSpace]
      split
      · exact ⟨[c], rfl⟩
      · exact ⟨[], rfl⟩

theorem markerTail_suffix (t r : List Char) (h : markerTail t = some r) :
    ∃ p, t = p ++ r := by
  rw [markerTail.eq_def] at h
  split at h
  · rename_i rest
    rw [Option.some.injEq] at h
    obtain ⟨p, hp⟩ := eatOneSpace_suffix rest
    exact ⟨':' :: p, by rw [← h, List.cons_append, ← hp]⟩
  · rename_i rest
    rw [Option.some.injEq] at h
    obtain ⟨p, hp⟩ := eatOneSpace_suffix rest
    exact ⟨'s' :: ':' :: p, by rw [← h, List.cons_append, List.cons_append, ← hp]⟩
  · exact absurd h (by simp)

theorem matchMarkerIn_suffix (kws : List (List Char)) (l : List Char) :
    ∀ kw r, matchMarkerIn kws l = some (kw, r) → ∃ p, l = p ++ r := by
  induction kws with
  | nil => intro kw r h; exact absurd h (by rw [matchMarkerIn]; simp)
  | cons k ks ih =>
      intro kw r h
      rw [matchMarkerIn] at h
      cases hd : dropLit k l with
      | none => rw [hd] at h; dsimp only at h; exact ih kw r h
      | some t =>
          rw [hd] at h
          dsimp only at h
          cases hmt : markerTail t with
          | none => rw [hmt] at h; dsimp only at h; exact ih kw r h
          | some r2 =>
              rw [hmt] at h
              dsimp only at h
              simp only [Option.some.injEq, Prod.mk.injEq] at h
              obtain ⟨p2, hp2⟩ := markerTail_suffix t r2 hmt
              exact ⟨k ++ p2, by
                rw [dropLit_sound k l t hd, hp2, h.2, List.append_assoc]⟩

theorem matchMarker_suffix (l kw r : List Char) (h : matchMarker l = some (kw, r)) :
    ∃ p, l = p ++ r :=
  matchMarkerIn_suffix sectionKeywords l kw r h

end DocFns

namespace DocFns

theorem goodEnd_of_suffix (l pref tl : List Char) (hl : goodEnd l)
    (hsplit : l = pref ++ tl) : goodEnd tl := by
  by_cases htl : tl = []
  · exact Or.inl htl
  · rcases hl with h | h | h
    · rw [h] at hsplit
      exact absurd (List.append_eq_nil.mp hsplit.symm).2 htl
    · right; left
      rw [← getLast?_append_ne pref tl htl, ← hsplit]
      exact h
    · right; right
      rw [← getLast?_append_ne pref tl htl, ← hsplit]
      exact h

theorem goodEnd_append (acc l : List Char) (hacc : goodEnd acc) (hl : goodEnd l) :
    goodEnd (acc ++ l) := by
  rcases hl with h | h | h
  · rw [h, List.append_nil]
    exact hacc
  · exact Or.inr (Or.inl (by rw [getLast?_append_ne acc l (ne_nil_of_getLast l '\n' h)]; exact h))
  · exact Or.inr (Or.inr (by rw [getLast?_append_ne acc l (ne_nil_of_getLast l '/' h)]; exact h))

theorem splitGo_piece_shape (L : List (List Char)) :
    ∀ acc, goodEnd acc → (∀ l ∈ L, goodEnd l) →
      ∀ p ∈ splitGo L acc,
        goodEnd p ∨ ∃ l ∈ L, ∃ r, matchMarker l = some (p, r) := by
  induction L with
  | nil =>
      intro acc hacc _ p hp
      rw [splitGo, List.mem_singleton] at hp
      subst hp
      exact Or.inl hacc
  | cons l L' ih =>
      intro acc hacc hL p hp
      rw [splitGo] at hp
      cases hm : matchMarker l with
      | some kr =>
          obtain ⟨kw, tl⟩ := kr
          rw [hm] at hp
          dsimp only at hp
          rcases List.mem_cons.1 hp with h0 | hp2
          · subst h0
            exact Or.inl hacc
          · rcases List.mem_cons.1 hp2 with h1 | hp3
            · subst h1
              exact Or.inr ⟨l, List.mem_cons_self l L', tl, hm⟩
            · have htl : goodEnd tl := by
                obtain ⟨pref, hpref⟩ := matchMarker_suffix l kw tl hm
                exact goodEnd_of_suffix l pref tl (hL l (List.mem_cons_self l L')) hpref
              rcases ih tl htl (fun x hx => hL x (List.mem_cons_of_mem l hx)) p hp3 with
                h | ⟨l2, hl2, r2, hm2⟩
              · exact Or.inl h
              · exact Or.inr ⟨l2, List.mem_cons_of_mem l hl2, r2, hm2⟩
      | none =>
          rw [hm] at hp
          dsimp only at hp
          have hgood : goodEnd (acc ++ l) :=
            goodEnd_append acc l hacc (hL l (List.mem_cons_self l L'))
          rcases ih (acc ++ l) hgood (fun x hx => hL x (List.mem_cons_of_mem l hx)) p hp with
            h | ⟨l2, hl2, r2, hm2⟩
          · exact Or.inl h
          · exact Or.inr ⟨l2, List.mem_cons_of_mem l hl2, r2, hm2⟩

theorem nlLines_goodEnd (t : List Char) (ht : goodEnd t) :
    ∀ l ∈ nlLines t, goodEnd l := by
  intro l hl
  rcases nlLinesAux_piece_last t [] l hl with h | h
  · exact Or.inr (Or.inl h)
  · rw [List.reverse_nil, List.nil_append] at h
    rcases ht with ht0 | ht0 | ht0
    · subst ht0
      exact absurd hl (by simp [nlLines, nlLinesAux])
    · exact Or.inr (Or.inl (by rw [h, ht0]))
    · exact Or.inr (Or.inr (by rw [h, ht0]))

theorem fivename_not_goodEnd (n : String) (hn : n ∈ fiveNames) :
    ¬ goodEnd n.data := by
  fin_cases hn <;> {
    intro h
    rcases h with h | h | h <;> exact absurd h (by decide)
  }

end DocFns


namespace DocFns

theorem pySplitlinesAux_last (N : Nat) :
    ∀ t : List Char, t.length ≤ N → ∀ cur c, isPyLineBreak c = false →
      (cur.reverse ++ t).getLast? = some c →
      ∃ M e, pySplitlinesAux false cur t = M ++ [e] ∧ e.getLast? = some c := by
  induction N with
  | zero =>
      intro t ht cur c hc hlast
      have ht0 : t = [] := List.length_eq_zero.mp (Nat.le_zero.mp ht)
      subst ht0
      rw [List.append_nil] at hlast
      rw [pySplitlinesAux,
          if_neg (by
            intro h
            rw [List.isEmpty_iff] at h
            rw [h] at hlast
            exact absurd hlast (by simp))]
      exact ⟨[], cur.reverse, rfl, hlast⟩
  | succ N ih =>
      intro t ht cur c hc hlast
      cases t with
      | nil =>
          rw [List.append_nil] at hlast
          rw [pySplitlinesAux,
              if_neg (by
                intro h
                rw [List.isEmpty_iff] at h
                rw [h] at hlast
                exact absurd hlast (by simp))]
          exact ⟨[], cur.reverse, rfl, hlast⟩
      | cons c1 t1 =>
          rw [pySplitlinesAux.eq_def]
          split
          · rename_i heq
            exact absurd heq (by simp)
          · rename_i rest heq
            injection heq with h1 h2
            subst h1
            cases rest with
            | nil =>
                exfalso
                rw [h2] at hlast
                rw [show cur.reverse ++ '\r' :: ['\n'] = (cur.reverse ++ ['\r']) ++ ['\n']
                    from by simp] at hlast
                rw [getLast?_append_ne _ _ (by simp), List.getLast?_singleton,
                    Option.some.injEq] at hlast
                rw [← hlast] at hc
                exact absurd hc (by decide)
            | cons y ys =>
                have hr : (([] : List Char).reverse ++ (y :: ys)).getLast? = some c := by
                  rw [List.reverse_nil, List.nil_append]
                  rw [h2] at hlast
                  rw [show cur.reverse ++ '\r' :: '\n' :: y :: ys
                      = (cur.reverse ++ ['\r', '\n']) ++ y :: ys from by simp,
                      getLast?_append_ne _ _ (by simp)] at hlast
                  exact hlast
                have hlen : (y :: ys).length ≤ N := by
                  have h3 := congrArg List.length h2
                  simp at h3 ht ⊢
                  omega
                obtain ⟨M, e, hMe, hel⟩ := ih (y :: ys) hlen [] c hc hr
                exact ⟨cur.reverse :: M, e, by rw [hMe]; rfl, hel⟩
          · rename_i c2 rest hnot heq
            injection heq with h1 h2
            subst h1
            subst h2
            split
            · rename_i hbrk
              cases t1 with
              | nil =>
                  exfalso
                  rw [getLast?_append_ne _ _ (by simp), List.getLast?_singleton,
                      Option.some.injEq] at hlast
                  rw [← hlast] at hc
                  rw [hc] at hbrk
                  exact absurd hbrk (by decide)
              | cons y ys =>
                  have hr : (([] : List Char).reverse ++ (y :: ys)).getLast? = some c := by
                    rw [List.reverse_nil, List.nil_append]
                    rw [show cur.reverse ++ c1 :: y :: ys
                        = (cur.reverse ++ [c1]) ++ y :: ys from by simp,
                        getLast?_append_ne _ _ (by simp)] at hlast
                    exact hlast
                  have hlen : (y :: ys).length ≤ N := by
                    simp at ht ⊢
                    omega
                  obtain ⟨M, e, hMe, hel⟩ := ih (y :: ys) hlen [] c hc hr
                  exact ⟨cur.reverse :: M, e, by rw [hMe]; rfl, hel⟩
            · rename_i hbrk
              have hr : ((c1 :: cur).reverse ++ t1).getLast? = some c := by
                rw [show (c1 :: cur).reverse ++ t1 = cur.reverse ++ c1 :: t1 from by simp]
                exact hlast
              have hlen : t1.length ≤ N := by
                simp at ht
                omega
              exact ih t1 hlen (c1 :: cur) c hc hr

theorem pySplitlines_last (t : List Char) (c : Char) (hc : isPyLineBreak c = false)
    (h : t.getLast? = some c) :
    ∃ M e, pySplitlines false t = M ++ [e] ∧ e.getLast? = some c :=
  pySplitlinesAux_last t.length t le_rfl [] c hc
    (by rw [List.reverse_nil, List.nil_append]; exact h)

end DocFns

namespace DocFns

theorem getLast?_drop (l : List Char) (k : Nat) (h : l.drop k ≠ []) :
    (l.drop k).getLast? = l.getLast? := by
  conv_rhs => rw [← List.take_append_drop k l]
  rw [getLast?_append_ne _ _ h]

theorem pyStrip_getLast (l : List Char) (c : Char) (hc : isPySpace c = false)
    (h : l.getLast? = some c) : (pyStrip l).getLast? = some c := by
  have hne : l ≠ [] := ne_nil_of_getLast l c h
  have hmem : c ∈ l := by
    have h2 := List.getLast?_eq_getLast l hne
    rw [h2] at h
    injection h with h3
    exact h3 ▸ List.getLast_mem hne
  have hsplit : l.takeWhile isPySpace ++ l.dropWhile isPySpace = l := by simp
  have hD : l.dropWhile isPySpace ≠ [] := by
    intro h0
    have hl2 : l = l.takeWhile isPySpace := by
      conv_lhs => rw [← hsplit]
      rw [h0, List.append_nil]
    have hp := List.mem_takeWhile_imp (hl2 ▸ hmem)
    rw [hc] at hp
    exact Bool.noConfusion hp
  have hDl : (l.dropWhile isPySpace).getLast? = some c := by
    conv at h => rw [← hsplit]
    rw [getLast?_append_ne _ _ hD] at h
    exact h
  have hrev : (l.dropWhile isPySpace).reverse.head? = some c := by
    rw [List.head?_reverse]
    exact hDl
  cases hR : (l.dropWhile isPySpace).reverse with
  | nil =>
      rw [hR] at hrev
      exact absurd hrev (by simp)
  | cons a as =>
      rw [hR] at hrev
      injection hrev with ha
      unfold pyStrip
      rw [hR, List.dropWhile_cons,
          show isPySpace a = false from ha ▸ hc, if_neg (by simp),
          ← hR, List.reverse_reverse]
      exact hDl

theorem intercalate_cons (s x : List Char) (xs : List (List Char)) :
    List.intercalate s (x :: xs)
      = x ++ (if xs = [] then [] else s ++ List.intercalate s xs) := by
  cases xs with
  | nil => simp [List.intercalate]
  | cons y ys => simp [List.intercalate, List.intersperse]

theorem intercalate_goodEnd (e : List Char) (he : e = [] ∨ e.getLast? = some '/') :
    ∀ M, goodEnd (List.intercalate ['\n'] (M ++ [e])) := by
  intro M
  induction M with
  | nil =>
      rw [List.nil_append, intercalate_cons, if_pos rfl, List.append_nil]
      rcases he with h | h
      · exact Or.inl h
      · exact Or.inr (Or.inr h)
  | cons x M' ih =>
      rw [List.cons_append, intercalate_cons, if_neg (by simp)]
      rcases ih with h0 | h0 | h0
      · refine Or.inr (Or.inl ?_)
        rw [h0, List.append_nil, getLast?_append_ne _ _ (by simp)]
        decide
      · refine Or.inr (Or.inl ?_)
        rw [getLast?_append_ne _ _ (by simp),
            getLast?_append_ne _ _ (ne_nil_of_getLast _ '\n' h0)]
        exact h0
      · refine Or.inr (Or.inr ?_)
        rw [getLast?_append_ne _ _ (by simp),
            getLast?_append_ne _ _ (ne_nil_of_getLast _ '/' h0)]
        exact h0

theorem headerText_goodEnd (header : String) (h : header.data.getLast? = some '/') :
    goodEnd (headerText header).data := by
  obtain ⟨M, e, hMe, hel⟩ :=
    pySplitlines_last header.data '/' (by decide) h
  show goodEnd (List.intercalate ['\n']
    ((pySplitlines false header.data).map (fun l => pyStrip (l.drop 3))))
  rw [hMe, List.map_append, List.map_singleton]
  refine intercalate_goodEnd _ ?_ _
  by_cases hd : e.drop 3 = []
  · left
    dsimp only
    rw [hd]
    rfl
  · right
    dsimp only
    exact pyStrip_getLast (e.drop 3) '/' (by decide)
      (by rw [getLast?_drop e 3 hd]; exact hel)

end DocFns

namespace DocFns

theorem get_section_header_missing (name header : String)
    (hn : name ∈ fiveNames)
    (hend : header.data.getLast? = some '/')
    (hnomark : ∀ l ∈ nlLines (headerText header).data,
      (matchMarker l).map Prod.fst ≠ some name.data) :
    get_section (splitSections (headerText header)) name
      = (some "", [⟨2, "Missing " ++ quoted name ++ " header section"⟩]) := by
  apply get_section_missing
  intro hmem
  rw [splitSections] at hmem
  obtain ⟨p, hp, hps⟩ := List.mem_map.1 hmem
  have hpd : p = name.data := by rw [← hps]
  rcases splitGo_piece_shape (nlLines (headerText header).data) []
      (Or.inl rfl)
      (nlLines_goodEnd _ (headerText_goodEnd header hend))
      p hp with hg | ⟨l, hl, r, hm⟩
  · exact fivename_not_goodEnd name hn (hpd ▸ hg)
  · exact hnomark l hl (by rw [hm, hpd]; rfl)

end DocFns

namespace DocFns

/-- C3: splitting a normalized header text assembled from an unnamed
leading fragment followed by the five recognized sections in any order
(each marker, optionally pluralized, once at the start of a line) and
looking each name up with `get_section` returns exactly the authored
raw body of that section, independently of the order; and for every
recognized name whose marker occurs on no line of the normalized text
of a header (any text ending in the closing `*/`), `get_section`
reports the missing section with an Error diagnostic and returns the
empty string. -/
theorem C3_split_roundtrip :
    (∀ (pre : String) (secs : List Sec),
      (pre = "" ∨ pre.data.getLast? = some '\n') →
      (∀ l ∈ nlLines pre.data, matchMarker l = none) →
      List.Perm (secs.map Sec.name) fiveNames →
      (∀ p ∈ secs, isPySpace p.sep = true) →
      (∀ p ∈ secs, ∀ l ∈ nlLines p.body.data, matchMarker l = none) →
      (∀ p ∈ secs.dropLast,
          p.body.data.getLast? = some '\n' ∨ (p.body.data = [] ∧ p.sep = '\n')) →
      ∀ p ∈ secs,
        get_section (splitSections (mkHeaderC3 pre secs)) p.name = (some p.body, [])) ∧
    (∀ (name header : String), name ∈ fiveNames →
      header.data.getLast? = some '/' →
      (∀ l ∈ nlLines (headerText header).data,
        (matchMarker l).map Prod.fst ≠ some name.data) →
      get_section (splitSections (headerText header)) name
        = (some "", [⟨2, "Missing " ++ quoted name ++ " header section"⟩])) := by
  refine ⟨?_, fun name header hn hend hnomark =>
    get_section_header_missing name header hn hend hnomark⟩
  intro pre secs hpre hpref hperm h2 h3 h4 p hp
  have h1 : ∀ q ∈ secs, q.name ∈ fiveNames := fun q hq =>
    hperm.subset (List.mem_map_of_mem Sec.name hq)
  have hne : secs ≠ [] := by
    intro h
    subst h
    exact absurd hperm.length_eq (by decide)
  have hnd : (secs.map Sec.name).Nodup :=
    (List.Perm.nodup_iff hperm).mpr (by decide)
  obtain ⟨l, r, hsplit⟩ := List.append_of_mem hp
  have hpd : ∀ q ∈ l, q ∈ secs.dropLast := by
    intro q hq
    rw [hsplit, List.dropLast_append_of_ne_nil l (by simp)]
    exact List.mem_append.2 (Or.inl hq)
  have hdisj : ∀ q ∈ l, q.name ≠ p.name := by
    have hnd' := hnd
    rw [hsplit, List.map_append, List.map_cons, List.nodup_append] at hnd'
    intro q hq heq
    exact (hnd'.2.2 (List.mem_map_of_mem Sec.name hq))
      (heq ▸ List.mem_cons_self p.name _)
  have hsections : splitSections (mkHeaderC3 pre secs)
      = (pre :: (l.map (fun q => [q.name, q.body])).flatten)
        ++ p.name :: p.body :: (r.map (fun q => [q.name, q.body])).flatten := by
    rw [splitSections_mkHeader pre secs hpre hpref hne h1 h2 h3 h4, hsplit,
        List.map_append, List.map_cons, List.flatten_append, List.flatten_cons]
    simp
  rw [hsections]
  apply get_section_found
  intro x hx
  rcases List.mem_cons.1 hx with hx0 | hxf
  · rw [hx0]
    rcases hpre with hpre0 | hpre0
    · rw [hpre0]
      exact fun h => name_ne_empty p.name (h1 p hp) h.symm
    · intro heq
      rw [heq] at hpre0
      exact name_not_endsNL p.name (h1 p hp) hpre0
  · rw [List.mem_flatten] at hxf
    obtain ⟨piece, hpiece, hxin⟩ := hxf
    rw [List.mem_map] at hpiece
    obtain ⟨q, hq, hqp⟩ := hpiece
    rw [← hqp] at hxin
    rcases List.mem_cons.1 hxin with hx1 | hx2
    · rw [hx1]
      exact hdisj q hq
    · rw [List.mem_singleton] at hx2
      rw [hx2]
      intro heq
      rcases h4 q (hpd q hq) with hnl | ⟨hemp, _⟩
      · rw [heq] at hnl
        exact name_not_endsNL p.name (h1 p hp) hnl
      · rw [heq] at hemp
        refine name_ne_empty p.name (h1 p hp) ?_
        calc p.name = String.mk p.name.data := rfl
          _ = String.mk [] := by rw [hemp]
          _ = "" := rfl

end DocFns

namespace DocFns

/-- Sections of the §8 scenario header in authored order. -/
def secs8 : List Sec :=
  [⟨"Author", false, ' ', "bux578\nDoes a thing.\n\n"⟩,
   ⟨"Argument", true, '\n', "0: Unit <OBJECT>\n\n"⟩,
   ⟨"Return Value", false, '\n', "Success <BOOLEAN>\n\n"⟩,
   ⟨"Example", false, '\n', "[player] call ace_test_fnc_thing;\n\n"⟩,
   ⟨"Public", false, ' ', "Yes\n"⟩]

/-- C3 witness: the §8 scenario header is an instance of the family (its
normalized text is the assembled text for `secs8` with leading fragment
`"\n"`), recovering the `Public` body; and a header containing only a
`Public` section reports `Author` as a missing section. -/
theorem C3_split_roundtrip_w :
    get_section (splitSections (headerText scenarioHeader)) "Public"
      = (some "Yes\n", []) ∧
    get_section (splitSections (headerText "/*\n * Public: Yes\n */")) "Author"
      = (some "", [⟨2, "Missing " ++ quoted "Author" ++ " header section"⟩]) := by
  constructor
  · have h := C3_split_roundtrip.1 "\n" secs8 (by decide) (by decide) (by decide)
      (by decide) (by decide) (by decide)
      ⟨"Public", false, ' ', "Yes\n"⟩ (by decide)
    rw [show headerText scenarioHeader = mkHeaderC3 "\n" secs8 from by decide]
    exact h
  · exact C3_split_roundtrip.2 "Author" "/*\n * Public: Yes\n */" (by decide)
      (by decide) (by decide)

end DocFns
